import Mathlib

/-!
Verification development for the `png2wasm4src` crate.

The development shallowly embeds the crate's core:

* `src/sprite.rs` — the palette-based pixel encoder (`encode_image`,
  `encode_1bpp_image`, `encode_2bpp_image`, `compute_palette_mapping`,
  `convert_png_to_rust_variables`),
* `src/sanitization.rs` — `sanitize_variable_name`,
* `src/flags.rs` — `Flags`,
* `src/rust.rs` — the `RustVariables` record,
* `src/lookup.rs` — `Module`, `Module::new`, `Module::parse`,
  `Module::flatten` and `build_sprite_modules_tree`.

Modelling conventions:

* Machine integers (`u32`, `usize`) are modelled as `Nat`; the `u8` arithmetic
  of the encoder, where wrap-around is reachable, is modelled with explicit
  `% 256`.  Rust's `u8` complement `!mask` is `255 ^^^ mask`.
* A decoded `RgbaImage` is a width, a height and a total colour function; the
  colour at a pixel is the combined value `r <<< 24 ||| g <<< 16 ||| b <<< 8`
  that `color_to_value`/`quadruple_to_value` produce in the source (alpha is
  ignored there), so palettes and pixels live in the same `Nat` key space.
* The `HashMap<u32, usize>` palette mapping is a `Nat → Option Nat` function;
  a failed `.expect` lookup (a Rust panic) surfaces as `none`/`Option`.
* `Vec<u8>` indexing out of bounds (a Rust panic) also surfaces as `none`.
* `BTreeSet` values are sorted duplicate-free lists; collecting an iterator
  into a `BTreeSet` is modelled by folding an ordered insert (`insertSortedBy`)
  over the iterator, and `BTreeSet::append` by inserting all elements of the
  second set into the first.  `PathBuf`/`String` ordering is lexicographic on
  the character sequence, and the derived `Ord` of `Module`, `RustVariables`
  and `ParsedModule` compares fields left-to-right, as in the source.
* The filesystem consumed by `build_sprite_modules_tree` is an explicit tree
  (`FsEntry`); `read` plus PNG decoding, an external collaborator of
  `Module::parse`, is an oracle `String → Except _ (List Nat × Image)` giving
  each path's extracted palette and decoded image.
-/

set_option maxHeartbeats 1000000

namespace Png2Wasm4Src

/-- Model of a decoded RGBA image: dimensions plus the combined 32-bit colour
value (`r <<< 24 ||| g <<< 16 ||| b <<< 8`, alpha dropped) at each pixel. -/
structure Image where
  width : Nat
  height : Nat
  pix : Nat → Nat → Nat

/-- Row-major pixel enumeration of an image, as the `enumerate_pixels` iterator
of the `image` crate yields it: `y` outer, `x` inner, each element being
`(x, y, colour)`. -/
def enumeratePixels (img : Image) : List (Nat × Nat × Nat) :=
  (List.range img.height).flatMap fun y =>
    (List.range img.width).map fun x => (x, y, img.pix x y)

/-- One iteration of the pixel loop in `encode_image` (src/sprite.rs): look the
colour up in the palette mapping (`none` models the `.expect` panic), compute
`(idx, shift, mask)`, push one zero byte if the buffer is too short, then write
`(index as u8) << shift | (bytes[idx] & !mask)` (in `u8` arithmetic) at `idx`
(`none` models the panic of an out-of-bounds `bytes[idx]`; inside the bounds
check the read `bytes[idx]` is `getD idx 0`). -/
def encodeStep (palette : Nat → Option Nat) (encode : Nat → Nat → Nat × Nat × Nat)
    (bytes : List Nat) (px : Nat × Nat × Nat) : Option (List Nat) :=
  match px with
  | (x, y, color) =>
    match palette color with
    | none => none
    | some index =>
      match encode x y with
      | (idx, shift, mask) =>
        let bytes1 := if bytes.length ≤ idx then bytes ++ [0] else bytes
        if idx < bytes1.length then
          some (bytes1.set idx ((((index % 256) <<< shift) % 256) |||
            (bytes1.getD idx 0 &&& (255 ^^^ mask))))
        else
          none

/-- The pixel loop of `encode_image`, iterating `encodeStep` over a pixel
list. -/
def encodeList (palette : Nat → Option Nat) (encode : Nat → Nat → Nat × Nat × Nat) :
    List (Nat × Nat × Nat) → List Nat → Option (List Nat)
  | [], bytes => some bytes
  | px :: rest, bytes =>
    match encodeStep palette encode bytes px with
    | none => none
    | some bytes2 => encodeList palette encode rest bytes2

/-- `encode_image` from src/sprite.rs: fold the pixel loop over the row-major
pixel enumeration, starting from the empty buffer. -/
def encode_image (img : Image) (palette : Nat → Option Nat)
    (encode : Nat → Nat → Nat × Nat × Nat) : Option (List Nat) :=
  encodeList palette encode (enumeratePixels img) []

/-- `encode_1bpp_image` from src/sprite.rs, with its coordinate closure
`idx = (y*width + x) >> 3`, `shift = 7 - ((x as u8) & 0x7)`,
`mask = 0x1 << shift`. -/
def encode_1bpp_image (img : Image) (palette : Nat → Option Nat) : Option (List Nat) :=
  encode_image img palette fun x y =>
    ((y * img.width + x) >>> 3, 7 - ((x % 256) &&& 0x7),
      0x1 <<< (7 - ((x % 256) &&& 0x7)))

/-- `encode_2bpp_image` from src/sprite.rs, with its coordinate closure
`idx = (y*width + x) >> 2`, `shift = 6 - (((x as u8) & 0x3) << 1)`,
`mask = 0x3 << shift`. -/
def encode_2bpp_image (img : Image) (palette : Nat → Option Nat) : Option (List Nat) :=
  encode_image img palette fun x y =>
    ((y * img.width + x) >>> 2, 6 - (((x % 256) &&& 0x3) <<< 1),
      0x3 <<< (6 - (((x % 256) &&& 0x3) <<< 1)))

/-- `compute_palette_mapping` from src/sprite.rs: build the colour-to-index
mapping by inserting `(value, index)` pairs in palette order; a later duplicate
colour overwrites an earlier one, as with `HashMap::from_iter`. -/
def compute_palette_mapping (palette : List Nat) : Nat → Option Nat :=
  palette.enum.foldl (fun m p => fun v => if v = p.2 then some p.1 else m v) fun _ => none

/-- Read the `bpp` bits stored at bit offset `shift` of a byte: the inverse
bit-layout view used to state the round-trip law. -/
def readSlot (bpp byte shift : Nat) : Nat :=
  (byte >>> shift) &&& (2 ^ bpp - 1)

/-- Decidable form of "this colour is in the palette mapping with an index
below `bound`". -/
def mappedBelow (palette : Nat → Option Nat) (bound color : Nat) : Bool :=
  match palette color with
  | some index => decide (index < bound)
  | none => false

/-- `Flags` from src/flags.rs. -/
inductive Flags where
  | OneBitPerPixel
  | TwoBitsPerPixel
deriving DecidableEq

/-- `Flags::value` from src/flags.rs. -/
def Flags.value : Flags → Nat
  | .OneBitPerPixel => 0
  | .TwoBitsPerPixel => 1

/-- `Flags::human_readable_value` from src/flags.rs. -/
def Flags.human_readable_value : Flags → String
  | .OneBitPerPixel => "BLIT_1BPP"
  | .TwoBitsPerPixel => "BLIT_2BPP"

/-- `RustVariables` from src/rust.rs. -/
structure RustVariables where
  name : String
  width : Nat
  height : Nat
  flags : Flags
  data : List Nat
deriving DecidableEq

/-- `PngToWasm4SrcError` from src/error.rs (payloads of the wrapped foreign
errors are dropped; only the variant matters here). -/
inductive PngToWasm4SrcError where
  | IoError
  | FmtError
  | PngDecoding
  | Image
  | NotIndexedPng
  | InvalidPaletteSize (n : Nat)
  | FileWithoutStem
  | NonUtf8Path
deriving DecidableEq

/-- `convert_png_to_rust_variables` from src/sprite.rs, after the external
decoding steps: given the extracted palette and the decoded image, build the
mapping, dispatch on the palette size (2 → 1bpp, 4 → 2bpp, anything else →
`InvalidPaletteSize`), and package the encoded data with the image's own width
and height.  The inner `Option` models the encoder's `.expect` panic. -/
def convert_png_to_rust_variables (name : String) (palette : List Nat) (img : Image) :
    Except PngToWasm4SrcError (Option RustVariables) :=
  let mapping := compute_palette_mapping palette
  match palette.length with
  | 2 => .ok ((encode_1bpp_image img mapping).map
      fun data => RustVariables.mk name img.width img.height Flags.OneBitPerPixel data)
  | 4 => .ok ((encode_2bpp_image img mapping).map
      fun data => RustVariables.mk name img.width img.height Flags.TwoBitsPerPixel data)
  | n => .error (.InvalidPaletteSize n)

/-- `sanitize_variable_name` from src/sanitization.rs: uppercase (ASCII),
replace hyphens with underscores, drop leading characters that are not ASCII
letters or underscore, then keep only ASCII alphanumerics and underscores.
`Char.toUpper`, `Char.isAlpha` and `Char.isAlphanum` are ASCII-only, matching
`to_ascii_uppercase`, `is_ascii_alphabetic` and `is_ascii_alphanumeric`. -/
def sanitize_variable_name (name : String) : String :=
  String.mk ((((name.data.map Char.toUpper).map fun c =>
    if c = '-' then '_' else c).dropWhile fun c =>
      !(c.isAlpha || c == '_')).filter fun c => c.isAlphanum || c == '_')

/-- Three-way comparison on `Nat`. -/
def cmpNat (a b : Nat) : Ordering :=
  if a < b then .lt else if b < a then .gt else .eq

/-- Three-way comparison on `Char`, by code point, as Rust compares `char`s. -/
def cmpChar (a b : Char) : Ordering :=
  cmpNat a.toNat b.toNat

/-- Lexicographic three-way comparison of lists, as Rust's derived `Ord` for
sequences (`Vec`, `BTreeSet` iterated in order) compares them. -/
def cmpLex (cmp : α → α → Ordering) : List α → List α → Ordering
  | [], [] => .eq
  | [], _ :: _ => .lt
  | _ :: _, [] => .gt
  | a :: as, b :: bs =>
    match cmp a b with
    | .eq => cmpLex cmp as bs
    | ord => ord

/-- Three-way comparison on `String`/`PathBuf`, lexicographic on characters. -/
def cmpStr (a b : String) : Ordering :=
  cmpLex cmpChar a.data b.data

/-- Insert a value into a sorted duplicate-free list: the model of
`BTreeSet::insert` (an element equal to one already present is not added). -/
def insertSortedBy (cmp : α → α → Ordering) (x : α) : List α → List α
  | [] => [x]
  | y :: ys =>
    match cmp x y with
    | .lt => x :: y :: ys
    | .eq => y :: ys
    | .gt => y :: insertSortedBy cmp x ys

/-- Insert every element of `l` into the set `acc`: the model of
`BTreeSet::append` / extending a `BTreeSet` from an iterator. -/
def btreeInsertAll (cmp : α → α → Ordering) (acc : List α) (l : List α) : List α :=
  l.foldl (fun acc x => insertSortedBy cmp x acc) acc

/-- Collect a list into a `BTreeSet`, i.e. into a sorted duplicate-free
list. -/
def btreeOfList (cmp : α → α → Ordering) (l : List α) : List α :=
  btreeInsertAll cmp [] l

/-- Lawfulness of a three-way comparison: equality reflection, antisymmetry of
the swap, and transitivity of strict comparison. -/
def IsLawfulCmp (cmp : α → α → Ordering) : Prop :=
  (∀ a b, cmp a b = .eq ↔ a = b) ∧
  (∀ a b, (cmp a b).swap = cmp b a) ∧
  (∀ a b c, cmp a b = .lt → cmp b c = .lt → cmp a c = .lt)

/-- `Module` from src/lookup.rs: a name, a `BTreeSet` of sprite paths and a
`BTreeSet` of submodules. -/
inductive Module where
  | mk (name : String) (sprite_paths : List String) (submodules : List Module)

/-- Name field of a module. -/
def Module.name : Module → String
  | .mk n _ _ => n

/-- Sprite-path field of a module. -/
def Module.sprite_paths : Module → List String
  | .mk _ ps _ => ps

/-- Submodule field of a module. -/
def Module.submodules : Module → List Module
  | .mk _ _ subs => subs

mutual
/-- The derived `Ord` of `Module`: lexicographic on (name, sprite_paths,
submodules) — in particular submodule sets are ordered by name first. -/
def Module.cmp : Module → Module → Ordering
  | .mk n1 p1 s1, .mk n2 p2 s2 =>
    match cmpStr n1 n2 with
    | .eq =>
      match cmpLex cmpStr p1 p2 with
      | .eq => Module.cmpList s1 s2
      | ord => ord
    | ord => ord
/-- Lexicographic comparison of module lists (sequence comparison of
`BTreeSet<Module>`). -/
def Module.cmpList : List Module → List Module → Ordering
  | [], [] => .eq
  | [], _ :: _ => .lt
  | _ :: _, [] => .gt
  | a :: as, b :: bs =>
    match Module.cmp a b with
    | .eq => Module.cmpList as bs
    | ord => ord
end

/-- `Module::new` from src/lookup.rs: collect the given sprite paths and
submodules into `BTreeSet`s (canonical sorted duplicate-free order). -/
def Module.new (name : String) (sprite_paths : List String) (submodules : List Module) :
    Module :=
  .mk name (btreeOfList cmpStr sprite_paths) (btreeOfList Module.cmp submodules)

mutual
/-- `Module::flatten` from src/lookup.rs: flatten every submodule recursively,
appending its sprite paths into the root's set, and drop all submodules. -/
def Module.flatten : Module → Module
  | .mk name ps subs => .mk name (flattenInto ps subs) []
/-- The submodule loop of `Module::flatten`:
`sprite_paths.append(&mut submodule.flatten().sprite_paths)` for each
submodule in order. -/
def flattenInto (acc : List String) : List Module → List String
  | [] => acc
  | s :: rest => flattenInto (btreeInsertAll cmpStr acc (Module.flatten s).sprite_paths) rest
end

mutual
/-- All sprite paths of a module and of all its descendant submodules, at
every depth (root's own paths first). -/
def Module.allPaths : Module → List String
  | .mk _ ps subs => ps ++ allPathsList subs
/-- All sprite paths of a list of modules, at every depth. -/
def allPathsList : List Module → List String
  | [] => []
  | s :: rest => Module.allPaths s ++ allPathsList rest
end

/-- A filesystem tree: the model of the directory structure that
`build_sprite_modules_tree` walks with `read_dir`. -/
inductive FsEntry where
  | file (name : String)
  | dir (name : String) (entries : List FsEntry)

/-- Split a character list at every occurrence of a separator (the result is
never empty); computable model of `String.splitOn` for single-character
separators. -/
def splitOnChar (sep : Char) : List Char → List (List Char)
  | [] => [[]]
  | c :: rest =>
    match splitOnChar sep rest with
    | [] => [[c]]
    | p :: ps => if c = sep then [] :: p :: ps else (c :: p) :: ps

/-- Join character lists with a separator character between them; computable
model of `String.intercalate` for single-character separators. -/
def intercalateChar (sep : Char) : List (List Char) → List Char
  | [] => []
  | [p] => p
  | p :: ps => p ++ sep :: intercalateChar sep ps

/-- `Path::extension` on a file name: the part after the last dot, none when
there is no dot or when the only dot is leading (hidden files). -/
def pathExtension (name : String) : Option String :=
  match splitOnChar '.' name.data with
  | [] => none
  | [_] => none
  | [] :: [_] => none
  | parts => parts.getLast?.map String.mk

/-- The file pass of `build_sprite_modules_tree`: direct child files whose
extension is exactly `png`, as full paths under the directory's path. -/
def pngFiles (dirPath : String) (entries : List FsEntry) : List String :=
  entries.filterMap fun e =>
    match e with
    | .file f => if pathExtension f = some "png" then some (dirPath ++ "/" ++ f) else none
    | .dir _ _ => none

mutual
/-- `build_sprite_modules_tree` from src/lookup.rs, on the entry found at
`dirPath ++ "/" ++ its name`: fails (`Not a directory`) on a file; on a
directory, direct `png` children become sprite paths, each child directory is
built recursively, and a built submodule is kept only when
`!submodule.sprite_paths.is_empty()`. -/
def build_sprite_modules_tree (dirPath : String) : FsEntry → Option Module
  | .file _ => none
  | .dir name entries =>
    some (Module.new name (pngFiles (dirPath ++ "/" ++ name) entries)
      ((buildSubs (dirPath ++ "/" ++ name) entries).filter fun m => !m.sprite_paths.isEmpty))
/-- The directory pass of `build_sprite_modules_tree`: recursively build every
child directory, in order (a child directory always builds to `some`). -/
def buildSubs (dirPath : String) : List FsEntry → List Module
  | [] => []
  | .file _ :: rest => buildSubs dirPath rest
  | .dir d des :: rest =>
    match build_sprite_modules_tree dirPath (.dir d des) with
    | some m => m :: buildSubs dirPath rest
    | none => buildSubs dirPath rest
end

mutual
/-- Whether a filesystem subtree contains a `png` file anywhere. -/
def containsPng : FsEntry → Bool
  | .file f => decide (pathExtension f = some "png")
  | .dir _ entries => containsPngList entries
/-- Whether any entry of a list of filesystem trees contains a `png` file. -/
def containsPngList : List FsEntry → Bool
  | [] => false
  | e :: rest => containsPng e || containsPngList rest
end

/-- `Path::file_name` on a slash-separated path string. -/
def fileName (path : String) : Option String :=
  match (splitOnChar '/' path.data).getLast? with
  | some [] => none
  | some s => some (String.mk s)
  | none => none

/-- `Path::file_stem` on a slash-separated path string: the file name up to
the last dot (a lone leading dot does not start an extension). -/
def fileStem (path : String) : Option String :=
  (fileName path).map fun n =>
    match splitOnChar '.' n.data with
    | [] => n
    | [_] => n
    | [] :: [_] => n
    | parts => String.mk (intercalateChar '.' parts.dropLast)

/-- `ParsedModule` from src/lookup.rs: a name, a `BTreeSet` of
`RustVariables` and a `BTreeSet` of parsed submodules. -/
inductive ParsedModule where
  | mk (name : String) (vars : List RustVariables) (submodules : List ParsedModule)

/-- Name field of a parsed module. -/
def ParsedModule.name : ParsedModule → String
  | .mk n _ _ => n

/-- Variables field of a parsed module (the source field is called
`variables`, a reserved word here). -/
def ParsedModule.vars : ParsedModule → List RustVariables
  | .mk _ vs _ => vs

/-- Submodule field of a parsed module. -/
def ParsedModule.submodules : ParsedModule → List ParsedModule
  | .mk _ _ subs => subs

/-- The derived `Ord` of `Flags` (declaration order, i.e. by numeric value). -/
def Flags.cmp (a b : Flags) : Ordering :=
  cmpNat a.value b.value

/-- The derived `Ord` of `RustVariables`: lexicographic on (name, width,
height, flags, data). -/
def RustVariables.cmp (a b : RustVariables) : Ordering :=
  (cmpStr a.name b.name).then ((cmpNat a.width b.width).then
    ((cmpNat a.height b.height).then ((Flags.cmp a.flags b.flags).then
      (cmpLex cmpNat a.data b.data))))

mutual
/-- The derived `Ord` of `ParsedModule`: lexicographic on (name, variables,
submodules). -/
def ParsedModule.cmp : ParsedModule → ParsedModule → Ordering
  | .mk n1 v1 s1, .mk n2 v2 s2 =>
    match cmpStr n1 n2 with
    | .eq =>
      match cmpLex RustVariables.cmp v1 v2 with
      | .eq => ParsedModule.cmpList s1 s2
      | ord => ord
    | ord => ord
/-- Lexicographic comparison of parsed-module lists. -/
def ParsedModule.cmpList : List ParsedModule → List ParsedModule → Ordering
  | [], [] => .eq
  | [], _ :: _ => .lt
  | _ :: _, [] => .gt
  | a :: as, b :: bs =>
    match ParsedModule.cmp a b with
    | .eq => ParsedModule.cmpList as bs
    | ord => ord
end

/-- The per-path body of `Module::parse`: take the path's file stem as the
variable name (`FileWithoutStem` when absent), read and decode the file
through the oracle `fs`, then convert.  `NonUtf8Path` cannot arise in the
model because Lean strings are always valid text. -/
def convertPathToVariables (fs : String → Except PngToWasm4SrcError (List Nat × Image))
    (path : String) : Except PngToWasm4SrcError (Option RustVariables) :=
  match fileStem path with
  | none => .error .FileWithoutStem
  | some stem =>
    match fs path with
    | .error e => .error e
    | .ok pi => convert_png_to_rust_variables stem pi.1 pi.2

/-- The `collect::<Result<_, _>>` of `Module::parse` over the sprite paths:
first failure (or first panic, the inner `none`) aborts. -/
def collectVariables (fs : String → Except PngToWasm4SrcError (List Nat × Image)) :
    List String → Except PngToWasm4SrcError (Option (List RustVariables))
  | [] => .ok (some [])
  | path :: rest =>
    match convertPathToVariables fs path with
    | .error e => .error e
    | .ok none => .ok none
    | .ok (some rv) =>
      match collectVariables fs rest with
      | .error e => .error e
      | .ok none => .ok none
      | .ok (some rvs) => .ok (some (rv :: rvs))

mutual
/-- `Module::parse` from src/lookup.rs: convert every sprite path (in stored
order), recursively parse every submodule, and collect both into
`BTreeSet`s of the `ParsedModule`. -/
def Module.parse (fs : String → Except PngToWasm4SrcError (List Nat × Image)) :
    Module → Except PngToWasm4SrcError (Option ParsedModule)
  | .mk name paths subs =>
    match collectVariables fs paths with
    | .error e => .error e
    | .ok none => .ok none
    | .ok (some rvs) =>
      match Module.parseList fs subs with
      | .error e => .error e
      | .ok none => .ok none
      | .ok (some pms) =>
        .ok (some (.mk name (btreeOfList RustVariables.cmp rvs)
          (btreeOfList ParsedModule.cmp pms)))
/-- The submodule loop of `Module::parse`. -/
def Module.parseList (fs : String → Except PngToWasm4SrcError (List Nat × Image)) :
    List Module → Except PngToWasm4SrcError (Option (List ParsedModule))
  | [] => .ok (some [])
  | m :: rest =>
    match Module.parse fs m with
    | .error e => .error e
    | .ok none => .ok none
    | .ok (some pm) =>
      match Module.parseList fs rest with
      | .error e => .error e
      | .ok none => .ok none
      | .ok (some pms) => .ok (some (pm :: pms))
end

/-! ### Comparator laws -/

theorem cmpNat_lawful : IsLawfulCmp cmpNat := by
  refine ⟨fun a b => ?_, fun a b => ?_, fun a b c h1 h2 => ?_⟩
  · unfold cmpNat
    rcases Nat.lt_trichotomy a b with h | h | h
    · simp only [if_pos h]
      constructor <;> intro h' <;> [exact absurd h' (by simp); omega]
    · subst h
      simp [Nat.lt_irrefl]
    · simp only [if_neg (Nat.lt_asymm h), if_pos h]
      constructor <;> intro h' <;> [exact absurd h' (by simp); omega]
  · unfold cmpNat
    rcases Nat.lt_trichotomy a b with h | h | h
    · simp only [if_pos h, if_neg (Nat.lt_asymm h)]; rfl
    · subst h
      simp only [if_neg (Nat.lt_irrefl a)]; rfl
    · simp only [if_pos h, if_neg (Nat.lt_asymm h)]; rfl
  · unfold cmpNat at h1 h2 ⊢
    split at h1 <;> rename_i ha
    · split at h2 <;> rename_i hb
      · rw [if_pos (Nat.lt_trans ha hb)]
      · split at h2 <;> simp_all
    · split at h1 <;> simp_all

theorem cmpChar_lawful : IsLawfulCmp cmpChar := by
  obtain ⟨he, hs, ht⟩ := cmpNat_lawful
  refine ⟨fun a b => ?_, fun a b => hs _ _, fun a b c => ht _ _ _⟩
  rw [cmpChar, he]
  constructor
  · exact fun h => Char.ext (UInt32.toNat.inj h)
  · intro h; rw [h]

theorem lawful_refl {c : α → α → Ordering} (hc : IsLawfulCmp c) (a : α) : c a a = .eq :=
  (hc.1 a a).mpr rfl

theorem lawful_gt_iff {c : α → α → Ordering} (hc : IsLawfulCmp c) {a b : α} :
    c a b = .gt ↔ c b a = .lt := by
  constructor
  · intro h
    have := hc.2.1 a b
    rw [h] at this
    exact this.symm
  · intro h
    have := hc.2.1 b a
    rw [h] at this
    exact this.symm

theorem lawful_ne_of_lt {c : α → α → Ordering} (hc : IsLawfulCmp c) {a b : α}
    (h : c a b = .lt) : a ≠ b := by
  intro heq
  subst heq
  rw [lawful_refl hc] at h
  exact absurd h (by simp)

theorem cmpLex_lawful {c : α → α → Ordering} (hc : IsLawfulCmp c) :
    IsLawfulCmp (cmpLex c) := by
  refine ⟨?_, ?_, ?_⟩
  · intro l1
    induction l1 with
    | nil => intro l2; cases l2 <;> simp [cmpLex]
    | cons a as ih =>
      intro l2
      cases l2 with
      | nil => simp [cmpLex]
      | cons b bs =>
        rw [cmpLex]
        cases h : c a b with
        | eq =>
          have hab : a = b := (hc.1 a b).mp h
          simp [ih bs, hab]
        | lt =>
          have : a ≠ b := lawful_ne_of_lt hc h
          simp [this]
        | gt =>
          have hba : b ≠ a := lawful_ne_of_lt hc ((lawful_gt_iff hc).mp h)
          have hab : a ≠ b := fun h' => hba h'.symm
          simp [hab]
  · intro l1
    induction l1 with
    | nil => intro l2; cases l2 <;> rfl
    | cons a as ih =>
      intro l2
      cases l2 with
      | nil => rfl
      | cons b bs =>
        rw [cmpLex, cmpLex]
        cases h : c a b with
        | eq =>
          have hba : c b a = .eq := by
            have := hc.2.1 a b; rw [h] at this; exact this.symm
          rw [hba, ih bs]
        | lt =>
          have hba : c b a = .gt := by
            have := hc.2.1 a b; rw [h] at this; exact this.symm
          rw [hba]; rfl
        | gt =>
          have hba : c b a = .lt := (lawful_gt_iff hc).mp h
          rw [hba]; rfl
  · intro l1
    induction l1 with
    | nil =>
      intro l2 l3 h1 h2
      cases l2 with
      | nil => exact h2
      | cons b bs => cases l3 <;> simp_all [cmpLex]
    | cons a as ih =>
      intro l2 l3 h1 h2
      cases l2 with
      | nil => simp [cmpLex] at h1
      | cons b bs =>
        cases l3 with
        | nil => simp [cmpLex] at h2
        | cons d ds =>
          rw [cmpLex] at h1 h2 ⊢
          cases hab : c a b with
          | lt =>
            rw [hab] at h1
            cases hbd : c b d with
            | lt => rw [(hc.2.2 a b d hab hbd)]
            | eq =>
              have : b = d := (hc.1 b d).mp hbd
              rw [this] at hab
              rw [hab]
            | gt => rw [hbd] at h2; exact absurd h2 (by simp)
          | eq =>
            rw [hab] at h1
            have hab' : a = b := (hc.1 a b).mp hab
            cases hbd : c b d with
            | lt => rw [hab', hbd]
            | eq =>
              have hbd' : b = d := (hc.1 b d).mp hbd
              rw [hab', hbd', lawful_refl hc]
              rw [hbd] at h2
              exact ih bs ds h1 h2
            | gt => rw [hbd] at h2; exact absurd h2 (by simp)
          | gt => rw [hab] at h1; exact absurd h1 (by simp)

theorem cmpStr_lawful : IsLawfulCmp cmpStr := by
  obtain ⟨he, hs, ht⟩ := cmpLex_lawful cmpChar_lawful
  refine ⟨fun a b => ?_, fun a b => hs _ _, fun a b c => ht _ _ _⟩
  rw [cmpStr, he]
  constructor
  · exact fun h => String.ext h
  · intro h; rw [h]

mutual
theorem Module.cmp_eq_iff : ∀ (a b : Module), Module.cmp a b = .eq ↔ a = b
  | .mk n1 p1 s1, .mk n2 p2 s2 => by
    rw [Module.cmp]
    cases h1 : cmpStr n1 n2 with
    | eq =>
      have hn : n1 = n2 := (cmpStr_lawful.1 _ _).mp h1
      cases h2 : cmpLex cmpStr p1 p2 with
      | eq =>
        have hp : p1 = p2 := ((cmpLex_lawful cmpStr_lawful).1 _ _).mp h2
        simp [hn, hp, Module.cmpList_eq_iff s1 s2]
      | lt =>
        have hp : p1 ≠ p2 := lawful_ne_of_lt (cmpLex_lawful cmpStr_lawful) h2
        simp [hp]
      | gt =>
        have hp : p2 ≠ p1 :=
          lawful_ne_of_lt (cmpLex_lawful cmpStr_lawful)
            ((lawful_gt_iff (cmpLex_lawful cmpStr_lawful)).mp h2)
        have hp2 : p1 ≠ p2 := fun h' => hp h'.symm
        simp [hp2]
    | lt =>
      have hn : n1 ≠ n2 := lawful_ne_of_lt cmpStr_lawful h1
      simp [hn]
    | gt =>
      have hn : n2 ≠ n1 :=
        lawful_ne_of_lt cmpStr_lawful ((lawful_gt_iff cmpStr_lawful).mp h1)
      have hn2 : n1 ≠ n2 := fun h' => hn h'.symm
      simp [hn2]
theorem Module.cmpList_eq_iff : ∀ (l1 l2 : List Module), Module.cmpList l1 l2 = .eq ↔ l1 = l2
  | [], [] => by simp [Module.cmpList]
  | [], _ :: _ => by simp [Module.cmpList]
  | _ :: _, [] => by simp [Module.cmpList]
  | a :: as, b :: bs => by
    rw [Module.cmpList]
    cases h : Module.cmp a b with
    | eq =>
      have hab : a = b := (Module.cmp_eq_iff a b).mp h
      simp [hab, Module.cmpList_eq_iff as bs]
    | lt =>
      have hne : a ≠ b := by
        intro heq
        subst heq
        rw [(Module.cmp_eq_iff a a).mpr rfl] at h
        exact absurd h (by simp)
      simp [hne]
    | gt =>
      have hne : a ≠ b := by
        intro heq
        subst heq
        rw [(Module.cmp_eq_iff a a).mpr rfl] at h
        exact absurd h (by simp)
      simp [hne]
end

mutual
theorem Module.cmp_swap : ∀ (a b : Module), (Module.cmp a b).swap = Module.cmp b a
  | .mk n1 p1 s1, .mk n2 p2 s2 => by
    rw [Module.cmp, Module.cmp]
    cases h1 : cmpStr n1 n2 with
    | eq =>
      have h1' : cmpStr n2 n1 = .eq := by
        have := cmpStr_lawful.2.1 n1 n2; rw [h1] at this; exact this.symm
      rw [h1']
      cases h2 : cmpLex cmpStr p1 p2 with
      | eq =>
        have h2' : cmpLex cmpStr p2 p1 = .eq := by
          have := (cmpLex_lawful cmpStr_lawful).2.1 p1 p2; rw [h2] at this
          exact this.symm
        rw [h2']
        exact Module.cmpList_swap s1 s2
      | lt =>
        have h2' : cmpLex cmpStr p2 p1 = .gt := by
          have := (cmpLex_lawful cmpStr_lawful).2.1 p1 p2; rw [h2] at this
          exact this.symm
        rw [h2']; rfl
      | gt =>
        have h2' : cmpLex cmpStr p2 p1 = .lt := by
          have := (cmpLex_lawful cmpStr_lawful).2.1 p1 p2; rw [h2] at this
          exact this.symm
        rw [h2']; rfl
    | lt =>
      have h1' : cmpStr n2 n1 = .gt := by
        have := cmpStr_lawful.2.1 n1 n2; rw [h1] at this; exact this.symm
      rw [h1']; rfl
    | gt =>
      have h1' : cmpStr n2 n1 = .lt := by
        have := cmpStr_lawful.2.1 n1 n2; rw [h1] at this; exact this.symm
      rw [h1']; rfl
theorem Module.cmpList_swap : ∀ (l1 l2 : List Module), (Module.cmpList l1 l2).swap = Module.cmpList l2 l1
  | [], [] => rfl
  | [], _ :: _ => rfl
  | _ :: _, [] => rfl
  | a :: as, b :: bs => by
    rw [Module.cmpList, Module.cmpList]
    cases h : Module.cmp a b with
    | eq =>
      have h' : Module.cmp b a = .eq := by
        have := Module.cmp_swap a b; rw [h] at this; exact this.symm
      rw [h']
      exact Module.cmpList_swap as bs
    | lt =>
      have h' : Module.cmp b a = .gt := by
        have := Module.cmp_swap a b; rw [h] at this; exact this.symm
      rw [h']; rfl
    | gt =>
      have h' : Module.cmp b a = .lt := by
        have := Module.cmp_swap a b; rw [h] at this; exact this.symm
      rw [h']; rfl
end

mutual
theorem Module.cmp_lt_trans : ∀ (a b d : Module),
    Module.cmp a b = .lt → Module.cmp b d = .lt → Module.cmp a d = .lt
  | .mk n1 p1 s1, .mk n2 p2 s2, .mk n3 p3 s3 => by
    intro h1 h2
    rw [Module.cmp] at h1 h2 ⊢
    cases hn12 : cmpStr n1 n2 with
    | gt => rw [hn12] at h1; exact absurd h1 (by simp)
    | lt =>
      rw [hn12] at h1
      cases hn23 : cmpStr n2 n3 with
      | gt => rw [hn23] at h2; exact absurd h2 (by simp)
      | lt => rw [cmpStr_lawful.2.2 n1 n2 n3 hn12 hn23]
      | eq =>
        have : n2 = n3 := (cmpStr_lawful.1 _ _).mp hn23
        rw [← this, hn12]
    | eq =>
      rw [hn12] at h1
      have hn12' : n1 = n2 := (cmpStr_lawful.1 _ _).mp hn12
      cases hn23 : cmpStr n2 n3 with
      | gt => rw [hn23] at h2; exact absurd h2 (by simp)
      | lt => rw [hn12', hn23]
      | eq =>
        rw [hn23] at h2
        rw [hn12', hn23]
        cases hp12 : cmpLex cmpStr p1 p2 with
        | gt => rw [hp12] at h1; exact absurd h1 (by simp)
        | lt =>
          rw [hp12] at h1
          cases hp23 : cmpLex cmpStr p2 p3 with
          | gt => rw [hp23] at h2; exact absurd h2 (by simp)
          | lt => rw [(cmpLex_lawful cmpStr_lawful).2.2 p1 p2 p3 hp12 hp23]
          | eq =>
            have : p2 = p3 := ((cmpLex_lawful cmpStr_lawful).1 _ _).mp hp23
            rw [← this, hp12]
        | eq =>
          rw [hp12] at h1
          have hp12' : p1 = p2 := ((cmpLex_lawful cmpStr_lawful).1 _ _).mp hp12
          cases hp23 : cmpLex cmpStr p2 p3 with
          | gt => rw [hp23] at h2; exact absurd h2 (by simp)
          | lt => rw [hp12', hp23]
          | eq =>
            rw [hp23] at h2
            rw [hp12', hp23]
            exact Module.cmpList_lt_trans s1 s2 s3 h1 h2
theorem Module.cmpList_lt_trans : ∀ (l1 l2 l3 : List Module),
    Module.cmpList l1 l2 = .lt → Module.cmpList l2 l3 = .lt → Module.cmpList l1 l3 = .lt
  | [], [], _ => by intro h _; simp [Module.cmpList] at h
  | [], _ :: _, [] => by intro _ h; simp [Module.cmpList] at h
  | [], _ :: _, _ :: _ => by intro _ _; rfl
  | _ :: _, [], _ => by intro h _; simp [Module.cmpList] at h
  | _ :: _, _ :: _, [] => by intro _ h; simp [Module.cmpList] at h
  | a :: as, b :: bs, d :: ds => by
    intro h1 h2
    rw [Module.cmpList] at h1 h2 ⊢
    cases hab : Module.cmp a b with
    | gt => rw [hab] at h1; exact absurd h1 (by simp)
    | lt =>
      rw [hab] at h1
      cases hbd : Module.cmp b d with
      | gt => rw [hbd] at h2; exact absurd h2 (by simp)
      | lt => rw [Module.cmp_lt_trans a b d hab hbd]
      | eq =>
        have : b = d := (Module.cmp_eq_iff b d).mp hbd
        rw [← this, hab]
    | eq =>
      rw [hab] at h1
      have hab' : a = b := (Module.cmp_eq_iff a b).mp hab
      cases hbd : Module.cmp b d with
      | gt => rw [hbd] at h2; exact absurd h2 (by simp)
      | lt => rw [hab', hbd]
      | eq =>
        rw [hbd] at h2
        rw [hab', hbd]
        exact Module.cmpList_lt_trans as bs ds h1 h2
end

theorem Module.cmp_lawful : IsLawfulCmp Module.cmp :=
  ⟨Module.cmp_eq_iff, Module.cmp_swap, Module.cmp_lt_trans⟩

/-! ### BTreeSet model: membership, sortedness, determinism -/

theorem mem_insertSortedBy {c : α → α → Ordering} (hc : IsLawfulCmp c) (x z : α) :
    ∀ l : List α, z ∈ insertSortedBy c x l ↔ z = x ∨ z ∈ l
  | [] => by simp [insertSortedBy]
  | y :: ys => by
    rw [insertSortedBy]
    cases h : c x y with
    | lt => simp [List.mem_cons]
    | eq =>
      have hxy : x = y := (hc.1 _ _).mp h
      subst hxy
      simp [List.mem_cons]
    | gt =>
      simp only [List.mem_cons, mem_insertSortedBy hc x z ys]
      tauto

theorem pairwise_insertSortedBy {c : α → α → Ordering} (hc : IsLawfulCmp c) (x : α) :
    ∀ l : List α, l.Pairwise (fun a b => c a b = Ordering.lt) →
      (insertSortedBy c x l).Pairwise (fun a b => c a b = Ordering.lt)
  | [], _ => by simp [insertSortedBy]
  | y :: ys, hp => by
    rcases List.pairwise_cons.mp hp with ⟨hy, hys⟩
    rw [insertSortedBy]
    cases h : c x y with
    | lt =>
      refine List.pairwise_cons.mpr ⟨?_, hp⟩
      intro z hz
      rcases List.mem_cons.mp hz with hz | hz
      · subst hz; exact h
      · exact hc.2.2 x y z h (hy z hz)
    | eq => exact hp
    | gt =>
      refine List.pairwise_cons.mpr ⟨?_, pairwise_insertSortedBy hc x ys hys⟩
      intro z hz
      rcases (mem_insertSortedBy hc x z ys).mp hz with hz | hz
      · subst hz; exact (lawful_gt_iff hc).mp h
      · exact hy z hz

theorem length_insertSortedBy (c : α → α → Ordering) (x : α) :
    ∀ l : List α, (insertSortedBy c x l).length ≤ l.length + 1
  | [] => by simp [insertSortedBy]
  | y :: ys => by
    rw [insertSortedBy]
    cases h : c x y with
    | lt => simp
    | eq => simp
    | gt =>
      have := length_insertSortedBy c x ys
      simp only [List.length_cons]
      omega

theorem btreeInsertAll_cons (c : α → α → Ordering) (acc : List α) (x : α) (xs : List α) :
    btreeInsertAll c acc (x :: xs) = btreeInsertAll c (insertSortedBy c x acc) xs := rfl

theorem mem_btreeInsertAll {c : α → α → Ordering} (hc : IsLawfulCmp c) (z : α) :
    ∀ (l acc : List α), z ∈ btreeInsertAll c acc l ↔ z ∈ acc ∨ z ∈ l
  | [], acc => by simp [btreeInsertAll]
  | x :: xs, acc => by
    rw [btreeInsertAll_cons,
      mem_btreeInsertAll hc z xs (insertSortedBy c x acc),
      mem_insertSortedBy hc]
    simp only [List.mem_cons]
    tauto

theorem pairwise_btreeInsertAll {c : α → α → Ordering} (hc : IsLawfulCmp c) :
    ∀ (l acc : List α), acc.Pairwise (fun a b => c a b = Ordering.lt) →
      (btreeInsertAll c acc l).Pairwise (fun a b => c a b = Ordering.lt)
  | [], acc, h => h
  | x :: xs, acc, h => by
    rw [btreeInsertAll_cons]
    exact pairwise_btreeInsertAll hc xs _ (pairwise_insertSortedBy hc x acc h)

theorem length_btreeInsertAll (c : α → α → Ordering) :
    ∀ (l acc : List α), (btreeInsertAll c acc l).length ≤ acc.length + l.length
  | [], acc => by simp [btreeInsertAll]
  | x :: xs, acc => by
    rw [btreeInsertAll_cons]
    have h1 := length_btreeInsertAll c xs (insertSortedBy c x acc)
    have h2 := length_insertSortedBy c x acc
    simp only [List.length_cons]
    omega

theorem mem_btreeOfList {c : α → α → Ordering} (hc : IsLawfulCmp c) (z : α) (l : List α) :
    z ∈ btreeOfList c l ↔ z ∈ l := by
  rw [btreeOfList, mem_btreeInsertAll hc]
  simp

theorem pairwise_btreeOfList {c : α → α → Ordering} (hc : IsLawfulCmp c) (l : List α) :
    (btreeOfList c l).Pairwise (fun a b => c a b = Ordering.lt) :=
  pairwise_btreeInsertAll hc l [] (by simp)

theorem length_btreeOfList (c : α → α → Ordering) (l : List α) :
    (btreeOfList c l).length ≤ l.length := by
  have := length_btreeInsertAll c l []
  simpa [btreeOfList] using this

theorem eq_of_pairwise_lt_of_mem_iff {c : α → α → Ordering} (hc : IsLawfulCmp c) :
    ∀ l1 l2 : List α, l1.Pairwise (fun a b => c a b = Ordering.lt) →
      l2.Pairwise (fun a b => c a b = Ordering.lt) →
      (∀ z, z ∈ l1 ↔ z ∈ l2) → l1 = l2
  | [], [], _, _, _ => rfl
  | [], b :: bs, _, _, hm =>
    absurd ((hm b).mpr (List.mem_cons_self b bs)) (List.not_mem_nil b)
  | a :: as, [], _, _, hm =>
    absurd ((hm a).mp (List.mem_cons_self a as)) (List.not_mem_nil a)
  | a :: as, b :: bs, h1, h2, hm => by
    rcases List.pairwise_cons.mp h1 with ⟨ha, has⟩
    rcases List.pairwise_cons.mp h2 with ⟨hb, hbs⟩
    have hab : a = b := by
      rcases List.mem_cons.mp ((hm a).mp (List.mem_cons_self a as)) with h | h
      · exact h
      · have hba : c b a = .lt := hb a h
        rcases List.mem_cons.mp ((hm b).mpr (List.mem_cons_self b bs)) with h' | h'
        · exact h'.symm
        · have hab : c a b = .lt := ha b h'
          have hres : c a a = .lt := hc.2.2 a b a hab hba
          rw [lawful_refl hc] at hres
          exact absurd hres (by simp)
    subst hab
    have htails : ∀ z, z ∈ as ↔ z ∈ bs := by
      intro z
      constructor
      · intro hz
        rcases List.mem_cons.mp ((hm z).mp (List.mem_cons_of_mem a hz)) with h | h
        · subst h
          have hres : c z z = .lt := ha z hz
          rw [lawful_refl hc] at hres
          exact absurd hres (by simp)
        · exact h
      · intro hz
        rcases List.mem_cons.mp ((hm z).mpr (List.mem_cons_of_mem a hz)) with h | h
        · subst h
          have hres : c z z = .lt := hb z hz
          rw [lawful_refl hc] at hres
          exact absurd hres (by simp)
        · exact h
    rw [eq_of_pairwise_lt_of_mem_iff hc as bs has hbs htails]

theorem btreeOfList_eq_of_perm {c : α → α → Ordering} (hc : IsLawfulCmp c)
    {l1 l2 : List α} (h : l1.Perm l2) : btreeOfList c l1 = btreeOfList c l2 :=
  eq_of_pairwise_lt_of_mem_iff hc _ _ (pairwise_btreeOfList hc l1)
    (pairwise_btreeOfList hc l2)
    (fun z => by rw [mem_btreeOfList hc, mem_btreeOfList hc]; exact h.mem_iff)

/-! ### Flatten lemmas -/

mutual
theorem Module.mem_flatten_paths : ∀ (m : Module) (p : String),
    p ∈ (Module.flatten m).sprite_paths ↔ p ∈ Module.allPaths m
  | .mk n ps subs, p => by
    rw [Module.flatten, Module.allPaths, Module.sprite_paths]
    rw [mem_flattenInto subs ps p]
    simp [List.mem_append]
theorem mem_flattenInto : ∀ (subs : List Module) (acc : List String) (p : String),
    p ∈ flattenInto acc subs ↔ p ∈ acc ∨ p ∈ allPathsList subs
  | [], acc, p => by simp [flattenInto, allPathsList]
  | s :: rest, acc, p => by
    rw [flattenInto, allPathsList]
    rw [mem_flattenInto rest _ p]
    rw [mem_btreeInsertAll cmpStr_lawful]
    rw [Module.mem_flatten_paths s p]
    simp only [List.mem_append]
    tauto
end

theorem pairwise_flattenInto : ∀ (subs : List Module) (acc : List String),
    acc.Pairwise (fun a b => cmpStr a b = Ordering.lt) →
    (flattenInto acc subs).Pairwise (fun a b => cmpStr a b = Ordering.lt)
  | [], _, h => h
  | s :: rest, acc, h => by
    rw [flattenInto]
    exact pairwise_flattenInto rest _ (pairwise_btreeInsertAll cmpStr_lawful _ _ h)

/-! ### Build lemmas -/

theorem build_dir_eq (dp n : String) (entries : List FsEntry) :
    build_sprite_modules_tree dp (.dir n entries) =
      some (Module.new n (pngFiles (dp ++ "/" ++ n) entries)
        ((buildSubs (dp ++ "/" ++ n) entries).filter fun m => !m.sprite_paths.isEmpty)) := by
  rw [build_sprite_modules_tree]

theorem mem_buildSubs : ∀ (dp : String) (entries : List FsEntry) (m : Module),
    m ∈ buildSubs dp entries ↔
      ∃ d des, FsEntry.dir d des ∈ entries ∧
        build_sprite_modules_tree dp (FsEntry.dir d des) = some m
  | dp, [], m => by simp [buildSubs]
  | dp, .file f :: rest, m => by
    rw [buildSubs, mem_buildSubs dp rest m]
    constructor
    · rintro ⟨d, des, hmem, hb⟩
      exact ⟨d, des, List.mem_cons_of_mem _ hmem, hb⟩
    · rintro ⟨d, des, hmem, hb⟩
      rcases List.mem_cons.mp hmem with h | h
      · exact absurd h (by simp)
      · exact ⟨d, des, h, hb⟩
  | dp, .dir d0 des0 :: rest, m => by
    rw [buildSubs]
    rw [build_dir_eq]
    simp only [List.mem_cons, mem_buildSubs dp rest m]
    constructor
    · rintro (rfl | ⟨d, des, hmem, hb⟩)
      · exact ⟨d0, des0, Or.inl rfl, build_dir_eq dp d0 des0⟩
      · exact ⟨d, des, Or.inr hmem, hb⟩
    · rintro ⟨d, des, hmem, hb⟩
      rcases hmem with heq | hmem
      · injection heq with h1 h2
        subst h1
        subst h2
        rw [build_dir_eq] at hb
        exact Or.inl (Option.some.inj hb).symm
      · exact Or.inr ⟨d, des, hmem, hb⟩

/-! ### Claims about the module tree -/

/-- C5: `Module::flatten` keeps the root name, returns a module with no
submodules, and its sprite-path set is exactly the union of the root's own
paths and all descendant submodules' paths at every depth; flattening a module
that already has no submodules returns it unchanged, and flatten is idempotent
(`flatten (flatten m) = flatten m`). -/
theorem c5_flatten_spec :
    (∀ m : Module, (Module.flatten m).name = m.name) ∧
    (∀ m : Module, (Module.flatten m).submodules = []) ∧
    (∀ (m : Module) (p : String),
      p ∈ (Module.flatten m).sprite_paths ↔ p ∈ Module.allPaths m) ∧
    (∀ (n : String) (ps : List String), Module.flatten (.mk n ps []) = .mk n ps []) ∧
    (∀ m : Module, Module.flatten (Module.flatten m) = Module.flatten m) := by
  refine ⟨?_, ?_, Module.mem_flatten_paths, ?_, ?_⟩
  · intro m
    cases m with
    | mk n ps subs => rw [Module.flatten, Module.name, Module.name]
  · intro m
    cases m with
    | mk n ps subs => rw [Module.flatten, Module.submodules]
  · intro n ps
    rw [Module.flatten, flattenInto]
  · intro m
    cases m with
    | mk n ps subs =>
      rw [Module.flatten, Module.flatten, flattenInto]

/-- C6 counterexample: flattening stores the merged sprite paths in sorted
`BTreeSet` order, not in root-paths-first concatenation order.  For the module
`mk "m" ["b"] [mk "s" ["a"] []]` the flattened paths are `["a", "b"]`, while
the claimed order (root's own paths, then the flattened submodule paths) is
`["b", "a"]`. -/
theorem c6_counterexample :
    (Module.flatten (Module.mk "m" ["b"] [Module.mk "s" ["a"] []])).sprite_paths
        = ["a", "b"] ∧
    (Module.mk "m" ["b"] [Module.mk "s" ["a"] []]).sprite_paths ++
        (Module.flatten (Module.mk "s" ["a"] [])).sprite_paths = ["b", "a"] ∧
    (["a", "b"] : List String) ≠ ["b", "a"] := by
  refine ⟨rfl, rfl, by decide⟩

/-- C6 (amended): the sprite paths of the flattened module are not in
root-first concatenation order; they are in strictly ascending path order (the
sorted order of the merged `BTreeSet`), provided the root's own stored paths
are sorted (as they always are for modules built by `Module::new`). -/
theorem c6_flatten_sorted :
    ∀ m : Module, m.sprite_paths.Pairwise (fun a b => cmpStr a b = Ordering.lt) →
      (Module.flatten m).sprite_paths.Pairwise (fun a b => cmpStr a b = Ordering.lt) := by
  intro m h
  cases m with
  | mk n ps subs =>
    rw [Module.flatten, Module.sprite_paths]
    rw [Module.sprite_paths] at h
    exact pairwise_flattenInto subs ps h

/-- C6 witness: the amended claim applied to a concrete module. -/
theorem c6_witness :
    (Module.flatten (Module.mk "m" ["b"] [Module.mk "s" ["a"] []])).sprite_paths.Pairwise
      (fun a b => cmpStr a b = Ordering.lt) :=
  c6_flatten_sorted (Module.mk "m" ["b"] [Module.mk "s" ["a"] []]) (by simp [Module.sprite_paths])

/-- C8: module construction is deterministic in the enumeration order of its
inputs: `Module::new` applied to permutations of the same sprite paths and the
same submodules yields equal modules, because both collections are stored in
canonical sorted duplicate-free `BTreeSet` order (submodules compared name
first by the derived lexicographic order). -/
theorem c8_new_deterministic :
    ∀ (name : String) (ps ps' : List String) (subs subs' : List Module),
      ps.Perm ps' → subs.Perm subs' →
      Module.new name ps subs = Module.new name ps' subs' := by
  intro name ps ps' subs subs' hp hs
  rw [Module.new, Module.new,
    btreeOfList_eq_of_perm cmpStr_lawful hp,
    btreeOfList_eq_of_perm Module.cmp_lawful hs]

/-- C8 witness: two permutations of concrete inputs construct equal modules. -/
theorem c8_witness :
    Module.new "m" ["b", "a"] [Module.mk "x" [] [], Module.mk "y" [] []] =
      Module.new "m" ["a", "b"] [Module.mk "y" [] [], Module.mk "x" [] []] :=
  c8_new_deterministic "m" ["b", "a"] ["a", "b"] _ _ (by decide)
    (List.Perm.swap (Module.mk "y" [] []) (Module.mk "x" [] []) [])

/-- C3 counterexample: the builder's filter tests only the submodule's own
direct sprite paths, so a submodule whose `png` files are all in nested
subdirectories is dropped.  In `root/a/b/c.png` the subtree `a` contains a
PNG, yet the built module for `root` has no submodules. -/
theorem c3_counterexample :
    ¬ (∀ (dp n : String) (entries : List FsEntry) (built : Module) (d : String)
        (des : List FsEntry),
        build_sprite_modules_tree dp (FsEntry.dir n entries) = some built →
        FsEntry.dir d des ∈ entries → containsPng (FsEntry.dir d des) = true →
        ∃ m ∈ built.submodules,
          build_sprite_modules_tree (dp ++ "/" ++ n) (FsEntry.dir d des) = some m) := by
  intro h
  have hinst := h "" "root" [FsEntry.dir "a" [FsEntry.dir "b" [FsEntry.file "c.png"]]]
    (Module.mk "root" [] []) "a" [FsEntry.dir "b" [FsEntry.file "c.png"]]
    rfl (List.mem_cons_self _ _) (by decide)
  rcases hinst with ⟨m, hm, _⟩
  exact absurd hm (by simp [Module.submodules])

/-- C3 (amended): a built submodule is kept exactly when its own directory has
at least one direct `png` child (equivalently, its own sprite-path set is
nonempty) — not when its whole subtree contains a PNG: the built module's
submodules are exactly the builds of those child directories whose direct
sprite-path set is nonempty. -/
theorem c3_prune_amended :
    ∀ (dp n : String) (entries : List FsEntry) (built : Module) (m : Module),
      build_sprite_modules_tree dp (FsEntry.dir n entries) = some built →
      (m ∈ built.submodules ↔
        ∃ d des, FsEntry.dir d des ∈ entries ∧
          build_sprite_modules_tree (dp ++ "/" ++ n) (FsEntry.dir d des) = some m ∧
          m.sprite_paths ≠ []) := by
  intro dp n entries built m hb
  rw [build_dir_eq] at hb
  injection hb with hb
  subst hb
  rw [Module.new, Module.submodules]
  rw [mem_btreeOfList Module.cmp_lawful]
  rw [List.mem_filter]
  rw [mem_buildSubs]
  constructor
  · rintro ⟨⟨d, des, hmem, hbd⟩, hne⟩
    refine ⟨d, des, hmem, hbd, ?_⟩
    simpa [List.isEmpty_iff] using hne
  · rintro ⟨d, des, hmem, hbd, hne⟩
    exact ⟨⟨d, des, hmem, hbd⟩, by simpa [List.isEmpty_iff] using hne⟩

/-- C3 witness: the amended claim applied to a concrete directory tree with
one direct-`png` child directory. -/
theorem c3_witness :
    Module.mk "a" ["/root/a/p.png"] [] ∈
        (Module.mk "root" [] [Module.mk "a" ["/root/a/p.png"] []]).submodules ↔
      ∃ d des, FsEntry.dir d des ∈ [FsEntry.dir "a" [FsEntry.file "p.png"]] ∧
        build_sprite_modules_tree ("" ++ "/" ++ "root") (FsEntry.dir d des) =
          some (Module.mk "a" ["/root/a/p.png"] []) ∧
        (Module.mk "a" ["/root/a/p.png"] []).sprite_paths ≠ [] :=
  c3_prune_amended "" "root" [FsEntry.dir "a" [FsEntry.file "p.png"]]
    (Module.mk "root" [] [Module.mk "a" ["/root/a/p.png"] []])
    (Module.mk "a" ["/root/a/p.png"] []) rfl

/-! ### Bit-manipulation lemmas for the packed-byte writes -/

theorem nat_and_two_pow_sub_one (x n : Nat) : x &&& (2 ^ n - 1) = x % 2 ^ n := by
  apply Nat.eq_of_testBit_eq
  intro i
  rw [Nat.testBit_land, Nat.testBit_two_pow_sub_one, Nat.testBit_mod_two_pow]
  exact Bool.and_comm _ _

theorem shift_mod_collapse {v s b : Nat} (hv : v < 2 ^ b) (hsb : s + b ≤ 8) :
    ((v % 256) <<< s) % 256 = v <<< s := by
  have hb8 : (2 : Nat) ^ b ≤ 2 ^ 8 := Nat.pow_le_pow_right (by norm_num) (by omega)
  have hv256 : v < 256 := lt_of_lt_of_le hv (le_trans hb8 (by norm_num))
  rw [Nat.mod_eq_of_lt hv256]
  apply Nat.mod_eq_of_lt
  rw [Nat.shiftLeft_eq]
  calc v * 2 ^ s < 2 ^ b * 2 ^ s := mul_lt_mul_of_pos_right hv (Nat.two_pow_pos s)
    _ = 2 ^ (b + s) := (pow_add 2 b s).symm
    _ ≤ 2 ^ 8 := Nat.pow_le_pow_right (by norm_num) (by omega)
    _ = 256 := by norm_num

theorem readSlot_write_self {b s : Nat} (v old : Nat) (hv : v < 2 ^ b) (hsb : s + b ≤ 8) :
    readSlot b ((v <<< s) ||| (old &&& (255 ^^^ ((2 ^ b - 1) <<< s)))) s = v := by
  have h255 : (255 : Nat) = 2 ^ 8 - 1 := by norm_num
  apply Nat.eq_of_testBit_eq
  intro i
  rw [readSlot, Nat.testBit_land, Nat.testBit_two_pow_sub_one, Nat.testBit_shiftRight,
    Nat.testBit_lor, Nat.testBit_land, Nat.testBit_xor, Nat.testBit_shiftLeft,
    Nat.testBit_shiftLeft, Nat.testBit_two_pow_sub_one, h255,
    Nat.testBit_two_pow_sub_one]
  by_cases hib : i < b
  · have h8 : s + i < 8 := by omega
    have hge : s + i ≥ s := Nat.le_add_right s i
    have hsub : s + i - s = i := by omega
    simp [hib, h8, hge, hsub]
  · have hvi : v.testBit i = false :=
      Nat.testBit_eq_false_of_lt
        (lt_of_lt_of_le hv (Nat.pow_le_pow_right (by norm_num) (by omega)))
    simp [hib, hvi]

theorem readSlot_write_other {b s t : Nat} (v old : Nat) (hv : v < 2 ^ b)
    (hsb : s + b ≤ 8) (htb : t + b ≤ 8) (hdis : t + b ≤ s ∨ s + b ≤ t) :
    readSlot b ((v <<< s) ||| (old &&& (255 ^^^ ((2 ^ b - 1) <<< s)))) t =
      readSlot b old t := by
  have h255 : (255 : Nat) = 2 ^ 8 - 1 := by norm_num
  apply Nat.eq_of_testBit_eq
  intro i
  rw [readSlot, readSlot, Nat.testBit_land, Nat.testBit_land, Nat.testBit_shiftRight,
    Nat.testBit_shiftRight, Nat.testBit_lor, Nat.testBit_land, Nat.testBit_xor,
    Nat.testBit_shiftLeft, Nat.testBit_shiftLeft, Nat.testBit_two_pow_sub_one, h255,
    Nat.testBit_two_pow_sub_one]
  by_cases hib : i < b
  · have h8 : t + i < 8 := by omega
    have hvbit : (decide (t + i ≥ s) && v.testBit (t + i - s)) = false := by
      rcases hdis with hd | hd
      · have : ¬ (t + i ≥ s) := by omega
        simp [this]
      · have hge : t + i ≥ s := by omega
        have : v.testBit (t + i - s) = false :=
          Nat.testBit_eq_false_of_lt
            (lt_of_lt_of_le hv (Nat.pow_le_pow_right (by norm_num) (by omega)))
        simp [hge, this]
    have hmaskbit : (decide (t + i ≥ s) && decide (t + i - s < b)) = false := by
      rcases hdis with hd | hd
      · have : ¬ (t + i ≥ s) := by omega
        simp [this]
      · have hge : t + i ≥ s := by omega
        have : ¬ (t + i - s < b) := by omega
        simp [hge, this]
    rw [hvbit, hmaskbit]
    simp [h8]
  · simp [hib]

/-! ### List indexing helpers -/

theorem getD_set_self (l : List Nat) (i v : Nat) (h : i < l.length) :
    (l.set i v).getD i 0 = v := by
  rw [List.getD_eq_getElem?_getD, List.getElem?_set_self h]
  rfl

theorem getD_set_other (l : List Nat) {i j : Nat} (v : Nat) (h : i ≠ j) :
    (l.set i v).getD j 0 = l.getD j 0 := by
  rw [List.getD_eq_getElem?_getD, List.getElem?_set_ne h, ← List.getD_eq_getElem?_getD]

theorem getD_append_left (l l2 : List Nat) (j : Nat) (h : j < l.length) :
    (l ++ l2).getD j 0 = l.getD j 0 :=
  List.getD_append l l2 0 j h

theorem get_eq_getD (l : List Nat) (i : Nat) (h : i < l.length) :
    l.get ⟨i, h⟩ = l.getD i 0 := by
  rw [List.get_eq_getElem, List.getD_eq_getElem?_getD, List.getElem?_eq_getElem h]
  rfl

/-! ### Ceiling-division bookkeeping for the growing byte buffer -/

theorem div_step_facts (m a : Nat) (hm : 0 < m) :
    a / m ≤ (a + (m - 1)) / m ∧
    ((a + (m - 1)) / m ≤ a / m → (a + (m - 1)) / m + 1 = (a + 1 + (m - 1)) / m) ∧
    (¬ (a + (m - 1)) / m ≤ a / m → (a + (m - 1)) / m = (a + 1 + (m - 1)) / m) := by
  obtain ⟨q, r, rfl, hr⟩ : ∃ q r, a = m * q + r ∧ r < m :=
    ⟨a / m, a % m, by rw [Nat.div_add_mod], Nat.mod_lt a hm⟩
  have hq : (m * q + r) / m = q := by
    rw [Nat.mul_add_div hm, Nat.div_eq_of_lt hr, Nat.add_zero]
  rcases Nat.eq_zero_or_pos r with hz | hz
  · subst hz
    have e1 : (m * q + 0 + (m - 1)) / m = q := by
      rw [Nat.add_zero, Nat.mul_add_div hm, Nat.div_eq_of_lt (by omega), Nat.add_zero]
    have e2 : (m * q + 0 + 1 + (m - 1)) / m = q + 1 := by
      have heq : m * q + 0 + 1 + (m - 1) = m * q + m := by omega
      rw [heq, ← Nat.mul_succ, Nat.mul_div_cancel_left _ hm]
    rw [e1, e2, hq]
    exact ⟨Nat.le_refl q, fun _ => rfl, fun hcon => absurd (Nat.le_refl q) hcon⟩
  · have e1 : (m * q + r + (m - 1)) / m = q + 1 := by
      have heq : m * q + r + (m - 1) = m * (q + 1) + (r - 1) := by
        have hms : m * (q + 1) = m * q + m := by ring
        omega
      rw [heq, Nat.mul_add_div hm, Nat.div_eq_of_lt (by omega), Nat.add_zero]
    by_cases hrm : r + 1 < m
    · have e2 : (m * q + r + 1 + (m - 1)) / m = q + 1 := by
        have heq : m * q + r + 1 + (m - 1) = m * (q + 1) + r := by
          have hms : m * (q + 1) = m * q + m := by ring
          omega
        rw [heq, Nat.mul_add_div hm, Nat.div_eq_of_lt (by omega), Nat.add_zero]
      rw [e1, e2, hq]
      exact ⟨by omega, fun hcon => by omega, fun _ => rfl⟩
    · have hrm' : r + 1 = m := by omega
      have e2 : (m * q + r + 1 + (m - 1)) / m = q + 1 + (m - 1) / m := by
        have heq : m * q + r + 1 + (m - 1) = m * (q + 1) + (m - 1) := by
          have hms : m * (q + 1) = m * q + m := by ring
          omega
        rw [heq, Nat.mul_add_div hm]
      rw [e1, e2, hq, Nat.div_eq_of_lt (by omega), Nat.add_zero]
      exact ⟨by omega, fun hcon => by omega, fun _ => rfl⟩

theorem slot_lt_len {m p a : Nat} (hm : 0 < m) (hpa : p < a) :
    p / m < (a + (m - 1)) / m := by
  have h1 : p / m ≤ (a - 1) / m := Nat.div_le_div_right (by omega)
  have h2 : a + (m - 1) = (a - 1) + m := by omega
  rw [h2, Nat.add_div_right _ hm]
  omega

/-! ### Row-major enumeration as a flat pixel-index list -/

theorem rowMajor_eq (w : Nat) (f : Nat → Nat → Nat) : ∀ h : Nat,
    (List.range h).flatMap (fun y => (List.range w).map fun x => (x, y, f x y)) =
      (List.range (w * h)).map fun p => (p % w, p / w, f (p % w) (p / w))
  | 0 => by simp
  | h + 1 => by
    rw [List.range_succ, List.flatMap_append, rowMajor_eq w f h]
    have hmul : w * (h + 1) = w * h + w := by ring
    rw [hmul, List.range_add, List.map_append, List.map_map]
    congr 1
    · simp only [List.flatMap_cons, List.flatMap_nil, List.append_nil]
      apply List.map_congr_left
      intro x hx
      have hxw : x < w := List.mem_range.mp hx
      have hw : 0 < w := by omega
      have hmod : (w * h + x) % w = x := by
        rw [Nat.mul_add_mod, Nat.mod_eq_of_lt hxw]
      have hdiv : (w * h + x) / w = h := by
        rw [Nat.mul_add_div hw, Nat.div_eq_of_lt hxw, Nat.add_zero]
      simp [Function.comp, hmod, hdiv]

theorem enumeratePixels_eq (img : Image) :
    enumeratePixels img = (List.range (img.width * img.height)).map
      fun p => (p % img.width, p / img.width, img.pix (p % img.width) (p / img.width)) :=
  rowMajor_eq img.width img.pix img.height

/-! ### The encoder loop: length invariant -/

theorem encodeList_length (pal : Nat → Option Nat) (enc : Nat → Nat → Nat × Nat × Nat)
    (w m : Nat) (hm : 0 < m) (f : Nat → Nat)
    (hidx : ∀ p : Nat, (enc (p % w) (p / w)).1 = p / m) :
    ∀ (n a : Nat) (bytes bytes' : List Nat),
      bytes.length = (a + (m - 1)) / m →
      encodeList pal enc ((List.range' a n).map fun p => (p % w, p / w, f p)) bytes =
        some bytes' →
      bytes'.length = (a + n + (m - 1)) / m
  | 0, a, bytes, bytes', hlen, henc => by
    simp only [List.range', List.map_nil, encodeList, Option.some.injEq] at henc
    rw [← henc, Nat.add_zero]
    exact hlen
  | n + 1, a, bytes, bytes', hlen, henc => by
    rw [List.range'_succ, List.map_cons, encodeList] at henc
    cases hstep : encodeStep pal enc bytes (a % w, a / w, f a) with
    | none => rw [hstep] at henc; exact absurd henc (by simp)
    | some bytes1 =>
      simp only [hstep] at henc
      have hlen1 : bytes1.length = (a + 1 + (m - 1)) / m := by
        rw [encodeStep] at hstep
        cases hp : pal (f a) with
        | none => rw [hp] at hstep; exact absurd hstep (by simp)
        | some index =>
          obtain ⟨i0, s0, k0, he0⟩ : ∃ i s k, enc (a % w) (a / w) = (i, s, k) :=
            ⟨_, _, _, rfl⟩
          have hi0 : i0 = a / m := by
            have h := hidx a
            rw [he0] at h
            exact h
          obtain ⟨hf1, hf2, hf3⟩ := div_step_facts m a hm
          by_cases hpush : bytes.length ≤ i0
          · simp only [hp, he0, if_pos hpush] at hstep
            split at hstep
            · rename_i hin
              have hb1 := Option.some.inj hstep
              rw [← hb1]
              simp only [List.length_set, List.length_append, List.length_singleton]
              rw [hlen]
              apply hf2
              rw [← hlen, ← hi0]
              exact hpush
            · exact absurd hstep (by simp)
          · simp only [hp, he0, if_neg hpush] at hstep
            split at hstep
            · rename_i hin
              have hb1 := Option.some.inj hstep
              rw [← hb1]
              simp only [List.length_set]
              rw [hlen]
              apply hf3
              rw [← hlen, ← hi0]
              exact hpush
            · exact absurd hstep (by simp)
      have hres := encodeList_length pal enc w m hm f hidx n (a + 1) bytes1 bytes' hlen1 henc
      rw [hres]
      congr 1
      omega

/-! ### The encoder loop: totality (no out-of-bounds write, no missing colour) -/

theorem encodeList_total (pal : Nat → Option Nat) (enc : Nat → Nat → Nat × Nat × Nat)
    (w m : Nat) (hm : 0 < m) (f : Nat → Nat)
    (hidx : ∀ p : Nat, (enc (p % w) (p / w)).1 = p / m) :
    ∀ (n a : Nat) (bytes : List Nat),
      bytes.length = (a + (m - 1)) / m →
      (∀ p, a ≤ p → p < a + n → (pal (f p)).isSome = true) →
      ∃ bytes', encodeList pal enc ((List.range' a n).map fun p => (p % w, p / w, f p))
        bytes = some bytes'
  | 0, a, bytes, _, _ => ⟨bytes, by simp [List.range', encodeList]⟩
  | n + 1, a, bytes, hlen, hpal => by
    rw [List.range'_succ, List.map_cons, encodeList]
    have hsome : (pal (f a)).isSome = true := hpal a (Nat.le_refl a) (by omega)
    obtain ⟨index, hp⟩ := Option.isSome_iff_exists.mp hsome
    obtain ⟨i0, s0, k0, he0⟩ : ∃ i s k, enc (a % w) (a / w) = (i, s, k) := ⟨_, _, _, rfl⟩
    have hi0 : i0 = a / m := by
      have h := hidx a
      rw [he0] at h
      exact h
    obtain ⟨hf1, hf2, hf3⟩ := div_step_facts m a hm
    have hi0le : i0 ≤ bytes.length := by
      rw [hlen, hi0]
      exact hf1
    have hstep : ∃ bytes1, encodeStep pal enc bytes (a % w, a / w, f a) = some bytes1 ∧
        bytes1.length = (a + 1 + (m - 1)) / m := by
      rw [encodeStep]
      by_cases hpush : bytes.length ≤ i0
      · have hin : i0 < (bytes ++ [0]).length := by
          simp only [List.length_append, List.length_singleton]
          omega
        simp only [hp, he0, if_pos hpush]
        rw [if_pos hin]
        refine ⟨_, rfl, ?_⟩
        simp only [List.length_set, List.length_append, List.length_singleton]
        rw [hlen]
        exact hf2 (by rw [← hlen, ← hi0]; exact hpush)
      · have hin : i0 < bytes.length := by omega
        simp only [hp, he0, if_neg hpush]
        rw [if_pos hin]
        refine ⟨_, rfl, ?_⟩
        simp only [List.length_set]
        rw [hlen]
        exact hf3 (by rw [← hlen, ← hi0]; exact hpush)
    obtain ⟨bytes1, hstep, hlen1⟩ := hstep
    rw [hstep]
    exact encodeList_total pal enc w m hm f hidx n (a + 1) bytes1 hlen1
      (fun p h1 h2 => hpal p (by omega) (by omega))

/-! ### The encoder loop: per-pixel round trip under byte-aligned rows -/

theorem encodeList_read (pal : Nat → Option Nat) (enc : Nat → Nat → Nat × Nat × Nat)
    (w b m : Nat) (hb : 0 < b) (hm : 0 < m) (hbm : b * m = 8) (f ix : Nat → Nat)
    (henc : ∀ p : Nat, enc (p % w) (p / w) =
      (p / m, 8 - b - b * (p % m), (2 ^ b - 1) <<< (8 - b - b * (p % m)))) :
    ∀ (n a : Nat) (bytes : List Nat),
      (∀ p, a ≤ p → p < a + n → pal (f p) = some (ix p) ∧ ix p < 2 ^ b) →
      bytes.length = (a + (m - 1)) / m →
      (∀ p, p < a → readSlot b (bytes.getD (p / m) 0) (8 - b - b * (p % m)) = ix p) →
      ∃ bytes',
        encodeList pal enc ((List.range' a n).map fun p => (p % w, p / w, f p)) bytes
          = some bytes' ∧
        bytes'.length = (a + n + (m - 1)) / m ∧
        ∀ p, p < a + n → readSlot b (bytes'.getD (p / m) 0) (8 - b - b * (p % m)) = ix p
  | 0, a, bytes, _, hlen, hread =>
    ⟨bytes, by simp [List.range', encodeList], by simpa using hlen,
      fun p hp => hread p (by omega)⟩
  | n + 1, a, bytes, hpal, hlen, hread => by
    have hble : b ≤ 8 := by
      have h := Nat.mul_le_mul_left b hm
      rw [Nat.mul_one] at h
      omega
    have hmul8 : b * (m - 1) + b = 8 := by
      have hm1 : m - 1 + 1 = m := by omega
      have : b * (m - 1) + b = b * ((m - 1) + 1) := by ring
      rw [this, hm1, hbm]
    have hsb : ∀ p : Nat, (8 - b - b * (p % m)) + b ≤ 8 := by
      intro p
      have h1 : p % m < m := Nat.mod_lt _ hm
      have h2 : b * (p % m) ≤ b * (m - 1) := Nat.mul_le_mul_left b (by omega)
      omega
    rw [List.range'_succ, List.map_cons, encodeList]
    obtain ⟨hpala, hixa⟩ := hpal a (Nat.le_refl a) (by omega)
    obtain ⟨hf1, hf2, hf3⟩ := div_step_facts m a hm
    have hEnc := henc a
    have hstep_facts : ∃ bytesP : List Nat,
        (if bytes.length ≤ a / m then bytes ++ [0] else bytes) = bytesP ∧
        bytesP.length = (a + 1 + (m - 1)) / m ∧
        (∀ j, j < bytes.length → bytesP.getD j 0 = bytes.getD j 0) ∧
        a / m < bytesP.length := by
      by_cases hpush : bytes.length ≤ a / m
      · refine ⟨bytes ++ [0], if_pos hpush, ?_, ?_, ?_⟩
        · simp only [List.length_append, List.length_singleton]
          rw [hlen]
          exact hf2 (by rw [← hlen]; exact hpush)
        · intro j hj
          exact getD_append_left bytes [0] j hj
        · simp only [List.length_append, List.length_singleton]
          have : a / m ≤ bytes.length := by rw [hlen]; exact hf1
          omega
      · refine ⟨bytes, if_neg hpush, ?_, fun j _ => rfl, by omega⟩
        rw [hlen]
        exact hf3 (by rw [← hlen]; exact hpush)
    obtain ⟨bytesP, hPdef, hPlen, hPget, hPin⟩ := hstep_facts
    have hstep : encodeStep pal enc bytes (a % w, a / w, f a) =
        some (bytesP.set (a / m)
          ((((ix a % 256) <<< (8 - b - b * (a % m))) % 256) |||
            (bytesP.getD (a / m) 0 &&&
              (255 ^^^ ((2 ^ b - 1) <<< (8 - b - b * (a % m))))))) := by
      simp only [encodeStep, hpala, hEnc, hPdef]
      rw [if_pos hPin]
    rw [hstep]
    have hcollapse : (((ix a % 256) <<< (8 - b - b * (a % m))) % 256) =
        ix a <<< (8 - b - b * (a % m)) := shift_mod_collapse hixa (hsb a)
    have hlen2 : (bytesP.set (a / m)
        ((((ix a % 256) <<< (8 - b - b * (a % m))) % 256) |||
          (bytesP.getD (a / m) 0 &&&
            (255 ^^^ ((2 ^ b - 1) <<< (8 - b - b * (a % m))))))).length =
        (a + 1 + (m - 1)) / m := by
      rw [List.length_set]
      exact hPlen
    have hread2 : ∀ p, p < a + 1 →
        readSlot b ((bytesP.set (a / m)
          ((((ix a % 256) <<< (8 - b - b * (a % m))) % 256) |||
            (bytesP.getD (a / m) 0 &&&
              (255 ^^^ ((2 ^ b - 1) <<< (8 - b - b * (a % m))))))).getD (p / m) 0)
          (8 - b - b * (p % m)) = ix p := by
      intro p hp
      rcases Nat.lt_or_ge p a with hpa | hpa
      · -- an earlier pixel: its slot is untouched by this write
        have hjlt : p / m < bytes.length := by
          rw [hlen]
          exact slot_lt_len hm hpa
        by_cases hj : p / m = a / m
        · -- same byte, different bit range
          have hpmod : p % m ≠ a % m := by
            have h1 := Nat.div_add_mod p m
            have h2 := Nat.div_add_mod a m
            rw [hj] at h1
            have hne : p ≠ a := by omega
            generalize hM : m * (a / m) = M at h1 h2
            omega
          have hdis : ((8 - b - b * (p % m)) + b ≤ (8 - b - b * (a % m)) ∨
              (8 - b - b * (a % m)) + b ≤ (8 - b - b * (p % m))) := by
            rcases Nat.lt_or_ge (p % m) (a % m) with hlt | hge
            · right
              have h2 : b * (p % m + 1) ≤ b * (a % m) := Nat.mul_le_mul_left b hlt
              have h3 : b * (p % m + 1) = b * (p % m) + b := by ring
              have h4 : p % m < m := Nat.mod_lt _ hm
              have h5 : b * (p % m) ≤ b * (m - 1) := Nat.mul_le_mul_left b (by omega)
              have h6 : a % m < m := Nat.mod_lt _ hm
              have h7 : b * (a % m) ≤ b * (m - 1) := Nat.mul_le_mul_left b (by omega)
              omega
            · left
              have hlt : a % m < p % m := by omega
              have h2 : b * (a % m + 1) ≤ b * (p % m) := Nat.mul_le_mul_left b hlt
              have h3 : b * (a % m + 1) = b * (a % m) + b := by ring
              have h4 : p % m < m := Nat.mod_lt _ hm
              have h5 : b * (p % m) ≤ b * (m - 1) := Nat.mul_le_mul_left b (by omega)
              have h6 : a % m < m := Nat.mod_lt _ hm
              have h7 : b * (a % m) ≤ b * (m - 1) := Nat.mul_le_mul_left b (by omega)
              omega
          rw [hj, getD_set_self _ _ _ hPin, hcollapse]
          rw [readSlot_write_other _ _ hixa (hsb a) (hsb p) hdis]
          rw [hPget _ (by rw [← hj]; exact hjlt)]
          rw [← hj]
          exact hread p hpa
        · -- different byte: untouched
          rw [getD_set_other _ _ (fun hcon => hj hcon.symm)]
          rw [hPget _ hjlt]
          exact hread p hpa
      · -- the pixel just written
        have hpa' : p = a := by omega
        subst hpa'
        rw [getD_set_self _ _ _ hPin, hcollapse]
        exact readSlot_write_self _ _ hixa (hsb p)
    obtain ⟨bytes', hrec, hlen', hread'⟩ :=
      encodeList_read pal enc w b m hb hm hbm f ix henc n (a + 1) _
        (fun p h1 h2 => hpal p (by omega) (by omega)) hlen2 hread2
    refine ⟨bytes', hrec, ?_, ?_⟩
    · rw [hlen']
      congr 1
      omega
    · intro p hp
      exact hread' p (by omega)

/-! ### Encoder coordinate algebra -/

theorem idx1_eq (w p : Nat) : (p / w * w + p % w) >>> 3 = p / 8 := by
  rw [Nat.div_add_mod', Nat.shiftRight_eq_div_pow]

theorem idx2_eq (w p : Nat) : (p / w * w + p % w) >>> 2 = p / 4 := by
  rw [Nat.div_add_mod', Nat.shiftRight_eq_div_pow]

theorem shift1_eq (w p : Nat) (hw : 8 ∣ w) :
    7 - ((p % w % 256) &&& 0x7) = 8 - 1 - 1 * (p % 8) := by
  have h1 : (p % w % 256) &&& 0x7 = p % w % 256 % 8 := by
    have h7 : (0x7 : Nat) = 2 ^ 3 - 1 := by norm_num
    rw [h7, nat_and_two_pow_sub_one]
    norm_num
  rw [h1, Nat.mod_mod_of_dvd _ (by norm_num : (8 : Nat) ∣ 256),
    Nat.mod_mod_of_dvd _ hw]
  omega

theorem shift2_eq (w p : Nat) (hw : 4 ∣ w) :
    6 - (((p % w % 256) &&& 0x3) <<< 1) = 8 - 2 - 2 * (p % 4) := by
  have h1 : (p % w % 256) &&& 0x3 = p % w % 256 % 4 := by
    have h3 : (0x3 : Nat) = 2 ^ 2 - 1 := by norm_num
    rw [h3, nat_and_two_pow_sub_one]
    norm_num
  rw [h1, Nat.mod_mod_of_dvd _ (by norm_num : (4 : Nat) ∣ 256),
    Nat.mod_mod_of_dvd _ hw, Nat.shiftLeft_eq]
  have : p % 4 < 4 := Nat.mod_lt _ (by norm_num)
  omega

/-! ### Claims about the pixel encoder: output length and totality -/

/-- C2: whenever the encoder returns a byte sequence (it "produces" one, i.e.
no panic occurred), that sequence has length exactly
`ceil(width*height*bpp/8)`: `(w*h + 7) / 8` bytes at 1 bit per pixel and
`(w*h + 3) / 4` bytes at 2 bits per pixel, including length 0 for an image
with no pixels. -/
theorem c2_encoded_length :
    (∀ (img : Image) (pal : Nat → Option Nat) (bytes : List Nat),
      encode_1bpp_image img pal = some bytes →
      bytes.length = (img.width * img.height + 7) / 8) ∧
    (∀ (img : Image) (pal : Nat → Option Nat) (bytes : List Nat),
      encode_2bpp_image img pal = some bytes →
      bytes.length = (img.width * img.height + 3) / 4) := by
  constructor
  · intro img pal bytes henc
    rw [encode_1bpp_image, encode_image, enumeratePixels_eq, List.range_eq_range'] at henc
    have hres := encodeList_length pal
      (fun x y => ((y * img.width + x) >>> 3, 7 - ((x % 256) &&& 0x7),
        0x1 <<< (7 - ((x % 256) &&& 0x7))))
      img.width 8 (by norm_num)
      (fun p => img.pix (p % img.width) (p / img.width))
      (fun p => idx1_eq img.width p)
      (img.width * img.height) 0 [] bytes (by norm_num) henc
    rw [hres]
    norm_num
  · intro img pal bytes henc
    rw [encode_2bpp_image, encode_image, enumeratePixels_eq, List.range_eq_range'] at henc
    have hres := encodeList_length pal
      (fun x y => ((y * img.width + x) >>> 2, 6 - (((x % 256) &&& 0x3) <<< 1),
        0x3 <<< (6 - (((x % 256) &&& 0x3) <<< 1))))
      img.width 4 (by norm_num)
      (fun p => img.pix (p % img.width) (p / img.width))
      (fun p => idx2_eq img.width p)
      (img.width * img.height) 0 [] bytes (by norm_num) henc
    rw [hres]
    norm_num

/-- C2 witness: a concrete 3×2 image needs `(3*2 + 7)/8 = 1` byte at 1bpp. -/
theorem c2_witness :
    encode_1bpp_image ⟨3, 2, fun _ _ => 7⟩ (fun c => if c = 7 then some 1 else none)
        = some [224] ∧
    ([224] : List Nat).length = (3 * 2 + 7) / 8 :=
  ⟨by decide, c2_encoded_length.1 ⟨3, 2, fun _ _ => 7⟩
    (fun c => if c = 7 then some 1 else none) [224] (by decide)⟩

/-- C10: when every pixel colour of the image occurs in the palette mapping,
`encode_image` (through either bit-depth encoder) is total: the conditional
single-byte growth always brings the computed byte index in bounds, so no
write panics and a byte sequence is returned. -/
theorem c10_encode_total :
    ∀ (img : Image) (pal : Nat → Option Nat),
      (∀ t ∈ enumeratePixels img, (pal t.2.2).isSome = true) →
      (encode_1bpp_image img pal).isSome = true ∧
      (encode_2bpp_image img pal).isSome = true := by
  intro img pal hmap
  have hpal : ∀ p, 0 ≤ p → p < 0 + img.width * img.height →
      (pal (img.pix (p % img.width) (p / img.width))).isSome = true := by
    intro p _ hp
    exact hmap (p % img.width, p / img.width,
        img.pix (p % img.width) (p / img.width))
      (by rw [enumeratePixels_eq]
          exact List.mem_map.mpr ⟨p, List.mem_range.mpr (by omega), rfl⟩)
  constructor
  · rw [encode_1bpp_image, encode_image, enumeratePixels_eq, List.range_eq_range']
    obtain ⟨bytes', hb⟩ := encodeList_total pal
      (fun x y => ((y * img.width + x) >>> 3, 7 - ((x % 256) &&& 0x7),
        0x1 <<< (7 - ((x % 256) &&& 0x7))))
      img.width 8 (by norm_num)
      (fun p => img.pix (p % img.width) (p / img.width))
      (fun p => idx1_eq img.width p)
      (img.width * img.height) 0 [] (by norm_num) hpal
    rw [hb]
    rfl
  · rw [encode_2bpp_image, encode_image, enumeratePixels_eq, List.range_eq_range']
    obtain ⟨bytes', hb⟩ := encodeList_total pal
      (fun x y => ((y * img.width + x) >>> 2, 6 - (((x % 256) &&& 0x3) <<< 1),
        0x3 <<< (6 - (((x % 256) &&& 0x3) <<< 1))))
      img.width 4 (by norm_num)
      (fun p => img.pix (p % img.width) (p / img.width))
      (fun p => idx2_eq img.width p)
      (img.width * img.height) 0 [] (by norm_num) hpal
    rw [hb]
    rfl

/-- C10 witness: a concrete image whose single colour is mapped encodes
successfully at both bit depths. -/
theorem c10_witness :
    (encode_1bpp_image ⟨3, 2, fun _ _ => 7⟩
      (fun c => if c = 7 then some 1 else none)).isSome = true ∧
    (encode_2bpp_image ⟨3, 2, fun _ _ => 7⟩
      (fun c => if c = 7 then some 1 else none)).isSome = true :=
  c10_encode_total ⟨3, 2, fun _ _ => 7⟩ (fun c => if c = 7 then some 1 else none)
    (by decide)

/-- C1 counterexample: the encoders derive the bit shift from `x` alone
(`shift = 7 - (x & 7)`) while the byte index is the flat pixel index, so for a
width that is not a multiple of 8/bpp two different pixels share a byte-and-
shift slot and the later write destroys the earlier pixel.  For the 3×2 image
whose only colour-1 pixel is (0,0), pixel (0,1) reuses byte 0 / shift 7 and
overwrites it: the encoder returns `[0]` and reading back pixel (0,0) yields 0
instead of its palette index 1, refuting the round-trip law as stated. -/
theorem c1_counterexample :
    ¬ (∀ (img : Image) (pal : Nat → Option Nat),
        (∀ t ∈ enumeratePixels img, mappedBelow pal 2 t.2.2 = true) →
        ∀ bytes, encode_1bpp_image img pal = some bytes →
        ∀ x y, x < img.width → y < img.height →
        ∀ i, pal (img.pix x y) = some i →
          readSlot 1 (bytes.getD (((y * img.width + x) * 1) >>> 3) 0)
            ((8 - 1) - ((y * img.width + x) % (8 / 1)) * 1) = i) := by
  intro hclaim
  have h := hclaim (Image.mk 3 2 fun x y => if x = 0 ∧ y = 0 then 10 else 20)
    (fun c => if c = 10 then some 1 else if c = 20 then some 0 else none)
    (by decide) [0] (by decide) 0 0 (by decide) (by decide) 1 (by decide)
  exact absurd h (by decide)

/-- C1 (amended): the per-pixel round-trip law holds for every image whose
pixel colours are all mapped below `2^bpp`, provided additionally that the
image width is a multiple of 8/bpp (8 at 1bpp, 4 at 2bpp), so that the
`x`-derived shift agrees with the flat-pixel-index position in its byte:
encoding packs most-significant-bit-first with
`byteIndex = (y*width + x)*bpp >> 3` and
`shift = (8 - bpp) - ((y*width + x) mod (8/bpp))*bpp`, and reading the bpp
bits back at that byte and shift recovers exactly the pixel's palette
index. -/
theorem c1_roundtrip_amended :
    (∀ (img : Image) (pal : Nat → Option Nat),
      (∀ t ∈ enumeratePixels img, mappedBelow pal 2 t.2.2 = true) →
      8 ∣ img.width →
      ∃ bytes, encode_1bpp_image img pal = some bytes ∧
        ∀ x y, x < img.width → y < img.height →
          ∀ i, pal (img.pix x y) = some i →
            readSlot 1 (bytes.getD (((y * img.width + x) * 1) >>> 3) 0)
              ((8 - 1) - ((y * img.width + x) % (8 / 1)) * 1) = i) ∧
    (∀ (img : Image) (pal : Nat → Option Nat),
      (∀ t ∈ enumeratePixels img, mappedBelow pal 4 t.2.2 = true) →
      4 ∣ img.width →
      ∃ bytes, encode_2bpp_image img pal = some bytes ∧
        ∀ x y, x < img.width → y < img.height →
          ∀ i, pal (img.pix x y) = some i →
            readSlot 2 (bytes.getD (((y * img.width + x) * 2) >>> 3) 0)
              ((8 - 2) - ((y * img.width + x) % (8 / 2)) * 2) = i) := by
  constructor
  · intro img pal hmap hw
    have hpal : ∀ p, 0 ≤ p → p < 0 + img.width * img.height →
        pal (img.pix (p % img.width) (p / img.width)) =
          some ((pal (img.pix (p % img.width) (p / img.width))).getD 0) ∧
        (pal (img.pix (p % img.width) (p / img.width))).getD 0 < 2 ^ 1 := by
      intro p _ hp
      have hmem := hmap (p % img.width, p / img.width,
          img.pix (p % img.width) (p / img.width))
        (by rw [enumeratePixels_eq]
            exact List.mem_map.mpr ⟨p, List.mem_range.mpr (by omega), rfl⟩)
      cases hcol : pal (img.pix (p % img.width) (p / img.width)) with
      | none =>
        simp only [mappedBelow, hcol] at hmem
        exact absurd hmem (by simp)
      | some i =>
        simp only [mappedBelow, hcol, decide_eq_true_eq] at hmem
        exact ⟨rfl, by simpa using hmem⟩
    have henc : ∀ p : Nat,
        (fun x y => ((y * img.width + x) >>> 3, 7 - ((x % 256) &&& 0x7),
          0x1 <<< (7 - ((x % 256) &&& 0x7)))) (p % img.width) (p / img.width) =
        (p / 8, 8 - 1 - 1 * (p % 8), (2 ^ 1 - 1) <<< (8 - 1 - 1 * (p % 8))) := by
      intro p
      simp only
      rw [idx1_eq, shift1_eq img.width p hw]
      norm_num
    obtain ⟨bytes, hb, hlen, hrd⟩ := encodeList_read pal
      (fun x y => ((y * img.width + x) >>> 3, 7 - ((x % 256) &&& 0x7),
        0x1 <<< (7 - ((x % 256) &&& 0x7))))
      img.width 1 8 (by norm_num) (by norm_num) (by norm_num)
      (fun p => img.pix (p % img.width) (p / img.width))
      (fun p => (pal (img.pix (p % img.width) (p / img.width))).getD 0)
      henc (img.width * img.height) 0 [] hpal (by norm_num)
      (fun p hp => absurd hp (by omega))
    refine ⟨bytes, ?_, ?_⟩
    · rw [encode_1bpp_image, encode_image, enumeratePixels_eq, List.range_eq_range']
      exact hb
    · intro x y hx hy i hi
      have hw0 : 0 < img.width := by omega
      have hpmod : (y * img.width + x) % img.width = x := by
        have hcomm : y * img.width + x = img.width * y + x := by ring
        rw [hcomm, Nat.mul_add_mod, Nat.mod_eq_of_lt hx]
      have hpdiv : (y * img.width + x) / img.width = y := by
        have hcomm : y * img.width + x = img.width * y + x := by ring
        rw [hcomm, Nat.mul_add_div hw0, Nat.div_eq_of_lt hx, Nat.add_zero]
      have hplt : y * img.width + x < img.width * img.height := by
        have h1 : (y + 1) * img.width = y * img.width + img.width := by ring
        have h2 : (y + 1) * img.width ≤ img.height * img.width :=
          Nat.mul_le_mul_right _ (by omega)
        have h3 : img.height * img.width = img.width * img.height := by ring
        omega
      have hres := hrd (y * img.width + x) (by omega)
      rw [hpmod, hpdiv, hi] at hres
      have e1 : ((y * img.width + x) * 1) >>> 3 = (y * img.width + x) / 8 := by
        rw [Nat.mul_one, Nat.shiftRight_eq_div_pow]
      have e2 : (8 - 1) - ((y * img.width + x) % (8 / 1)) * 1 =
          8 - 1 - 1 * ((y * img.width + x) % 8) := by
        omega
      rw [e1, e2]
      simpa using hres
  · intro img pal hmap hw
    have hpal : ∀ p, 0 ≤ p → p < 0 + img.width * img.height →
        pal (img.pix (p % img.width) (p / img.width)) =
          some ((pal (img.pix (p % img.width) (p / img.width))).getD 0) ∧
        (pal (img.pix (p % img.width) (p / img.width))).getD 0 < 2 ^ 2 := by
      intro p _ hp
      have hmem := hmap (p % img.width, p / img.width,
          img.pix (p % img.width) (p / img.width))
        (by rw [enumeratePixels_eq]
            exact List.mem_map.mpr ⟨p, List.mem_range.mpr (by omega), rfl⟩)
      cases hcol : pal (img.pix (p % img.width) (p / img.width)) with
      | none =>
        simp only [mappedBelow, hcol] at hmem
        exact absurd hmem (by simp)
      | some i =>
        simp only [mappedBelow, hcol, decide_eq_true_eq] at hmem
        exact ⟨rfl, by simpa using hmem⟩
    have henc : ∀ p : Nat,
        (fun x y => ((y * img.width + x) >>> 2, 6 - (((x % 256) &&& 0x3) <<< 1),
          0x3 <<< (6 - (((x % 256) &&& 0x3) <<< 1)))) (p % img.width) (p / img.width) =
        (p / 4, 8 - 2 - 2 * (p % 4), (2 ^ 2 - 1) <<< (8 - 2 - 2 * (p % 4))) := by
      intro p
      simp only
      rw [idx2_eq, shift2_eq img.width p hw]
      norm_num
    obtain ⟨bytes, hb, hlen, hrd⟩ := encodeList_read pal
      (fun x y => ((y * img.width + x) >>> 2, 6 - (((x % 256) &&& 0x3) <<< 1),
        0x3 <<< (6 - (((x % 256) &&& 0x3) <<< 1))))
      img.width 2 4 (by norm_num) (by norm_num) (by norm_num)
      (fun p => img.pix (p % img.width) (p / img.width))
      (fun p => (pal (img.pix (p % img.width) (p / img.width))).getD 0)
      henc (img.width * img.height) 0 [] hpal (by norm_num)
      (fun p hp => absurd hp (by omega))
    refine ⟨bytes, ?_, ?_⟩
    · rw [encode_2bpp_image, encode_image, enumeratePixels_eq, List.range_eq_range']
      exact hb
    · intro x y hx hy i hi
      have hw0 : 0 < img.width := by omega
      have hpmod : (y * img.width + x) % img.width = x := by
        have hcomm : y * img.width + x = img.width * y + x := by ring
        rw [hcomm, Nat.mul_add_mod, Nat.mod_eq_of_lt hx]
      have hpdiv : (y * img.width + x) / img.width = y := by
        have hcomm : y * img.width + x = img.width * y + x := by ring
        rw [hcomm, Nat.mul_add_div hw0, Nat.div_eq_of_lt hx, Nat.add_zero]
      have hplt : y * img.width + x < img.width * img.height := by
        have h1 : (y + 1) * img.width = y * img.width + img.width := by ring
        have h2 : (y + 1) * img.width ≤ img.height * img.width :=
          Nat.mul_le_mul_right _ (by omega)
        have h3 : img.height * img.width = img.width * img.height := by ring
        omega
      have hres := hrd (y * img.width + x) (by omega)
      rw [hpmod, hpdiv, hi] at hres
      have e1 : ((y * img.width + x) * 2) >>> 3 = (y * img.width + x) / 4 := by
        rw [Nat.shiftRight_eq_div_pow]
        omega
      have e2 : (8 - 2) - ((y * img.width + x) % (8 / 2)) * 2 =
          8 - 2 - 2 * ((y * img.width + x) % 4) := by
        omega
      rw [e1, e2]
      simpa using hres

/-- C1 witness: the amended round-trip law applied to concrete byte-aligned
images at both bit depths. -/
theorem c1_witness :
    (∃ bytes, encode_1bpp_image ⟨8, 1, fun _ _ => 7⟩
        (fun c => if c = 7 then some 1 else none) = some bytes ∧
      ∀ x y, x < (⟨8, 1, fun _ _ => 7⟩ : Image).width →
        y < (⟨8, 1, fun _ _ => 7⟩ : Image).height →
        ∀ i, (fun c => if c = 7 then some 1 else none)
            ((⟨8, 1, fun _ _ => 7⟩ : Image).pix x y) = some i →
          readSlot 1 (bytes.getD (((y * (⟨8, 1, fun _ _ => 7⟩ : Image).width + x) * 1) >>> 3) 0)
            ((8 - 1) - ((y * (⟨8, 1, fun _ _ => 7⟩ : Image).width + x) % (8 / 1)) * 1) = i) ∧
    (∃ bytes, encode_2bpp_image ⟨4, 1, fun _ _ => 5⟩
        (fun c => if c = 5 then some 3 else none) = some bytes ∧
      ∀ x y, x < (⟨4, 1, fun _ _ => 5⟩ : Image).width →
        y < (⟨4, 1, fun _ _ => 5⟩ : Image).height →
        ∀ i, (fun c => if c = 5 then some 3 else none)
            ((⟨4, 1, fun _ _ => 5⟩ : Image).pix x y) = some i →
          readSlot 2 (bytes.getD (((y * (⟨4, 1, fun _ _ => 5⟩ : Image).width + x) * 2) >>> 3) 0)
            ((8 - 2) - ((y * (⟨4, 1, fun _ _ => 5⟩ : Image).width + x) % (8 / 2)) * 2) = i) :=
  ⟨c1_roundtrip_amended.1 ⟨8, 1, fun _ _ => 7⟩ (fun c => if c = 7 then some 1 else none)
      (by decide) (by norm_num),
    c1_roundtrip_amended.2 ⟨4, 1, fun _ _ => 5⟩ (fun c => if c = 5 then some 3 else none)
      (by decide) (by norm_num)⟩

/-! ### Palette-size dispatch of the sprite converter -/

theorem convert_cases (name : String) (palette : List Nat) (img : Image) :
    (palette.length = 2 ∧ convert_png_to_rust_variables name palette img =
      .ok ((encode_1bpp_image img (compute_palette_mapping palette)).map
        fun data => RustVariables.mk name img.width img.height Flags.OneBitPerPixel data)) ∨
    (palette.length = 4 ∧ convert_png_to_rust_variables name palette img =
      .ok ((encode_2bpp_image img (compute_palette_mapping palette)).map
        fun data => RustVariables.mk name img.width img.height Flags.TwoBitsPerPixel data)) ∨
    (palette.length ≠ 2 ∧ palette.length ≠ 4 ∧
      convert_png_to_rust_variables name palette img =
        .error (.InvalidPaletteSize palette.length)) := by
  by_cases h2 : palette.length = 2
  · exact Or.inl ⟨h2, by simp only [convert_png_to_rust_variables, h2]⟩
  · by_cases h4 : palette.length = 4
    · exact Or.inr (Or.inl ⟨h4, by simp only [convert_png_to_rust_variables, h4]⟩)
    · refine Or.inr (Or.inr ⟨h2, h4, ?_⟩)
      rcases hL : palette.length with _ | _ | _ | _ | _ | n
      · simp only [convert_png_to_rust_variables, hL]
      · simp only [convert_png_to_rust_variables, hL]
      · exact absurd hL h2
      · simp only [convert_png_to_rust_variables, hL]
      · exact absurd hL h4
      · simp only [convert_png_to_rust_variables, hL]

/-- C4: `convert_png_to_rust_variables` (given the extracted palette and the
decoded image) fails with `InvalidPaletteSize n` exactly when the palette's
colour count `n` is neither 2 nor 4; with 2 colours it encodes at 1 bit per
pixel under flag `OneBitPerPixel`, with 4 colours at 2 bits per pixel under
flag `TwoBitsPerPixel`, packaging the result with the image's own width and
height and the given name. -/
theorem c4_invalid_palette_size :
    ∀ (name : String) (palette : List Nat) (img : Image),
      (∀ n, convert_png_to_rust_variables name palette img =
          .error (.InvalidPaletteSize n) ↔
        (palette.length = n ∧ n ≠ 2 ∧ n ≠ 4)) ∧
      (palette.length = 2 →
        ∃ o, convert_png_to_rust_variables name palette img = .ok o ∧
          (∀ rv, o = some rv → rv.flags = Flags.OneBitPerPixel ∧
            rv.width = img.width ∧ rv.height = img.height ∧ rv.name = name ∧
            encode_1bpp_image img (compute_palette_mapping palette) = some rv.data) ∧
          (o = none →
            encode_1bpp_image img (compute_palette_mapping palette) = none)) ∧
      (palette.length = 4 →
        ∃ o, convert_png_to_rust_variables name palette img = .ok o ∧
          (∀ rv, o = some rv → rv.flags = Flags.TwoBitsPerPixel ∧
            rv.width = img.width ∧ rv.height = img.height ∧ rv.name = name ∧
            encode_2bpp_image img (compute_palette_mapping palette) = some rv.data) ∧
          (o = none →
            encode_2bpp_image img (compute_palette_mapping palette) = none)) := by
  intro name palette img
  rcases convert_cases name palette img with ⟨h2, hconv⟩ | ⟨h4, hconv⟩ | ⟨h2, h4, hconv⟩
  · refine ⟨?_, ?_, ?_⟩
    · intro n
      constructor
      · intro h
        rw [hconv] at h
        exact absurd h (by simp)
      · rintro ⟨hlen, hn2, hn4⟩
        subst hlen
        exact absurd h2 hn2
    · intro _
      refine ⟨_, hconv, ?_, ?_⟩
      · intro rv hrv
        cases henc : encode_1bpp_image img (compute_palette_mapping palette) with
        | none => rw [henc] at hrv; exact absurd hrv (by simp)
        | some data =>
          rw [henc] at hrv
          simp only [Option.map_some'] at hrv
          injection hrv with hrv
          subst hrv
          exact ⟨rfl, rfl, rfl, rfl, by simp [henc]⟩
      · intro hnone
        cases henc : encode_1bpp_image img (compute_palette_mapping palette) with
        | none => rfl
        | some data => rw [henc] at hnone; exact absurd hnone (by simp)
    · intro h4
      omega
  · refine ⟨?_, ?_, ?_⟩
    · intro n
      constructor
      · intro h
        rw [hconv] at h
        exact absurd h (by simp)
      · rintro ⟨hlen, hn2, hn4⟩
        subst hlen
        exact absurd h4 hn4
    · intro h2
      omega
    · intro _
      refine ⟨_, hconv, ?_, ?_⟩
      · intro rv hrv
        cases henc : encode_2bpp_image img (compute_palette_mapping palette) with
        | none => rw [henc] at hrv; exact absurd hrv (by simp)
        | some data =>
          rw [henc] at hrv
          simp only [Option.map_some'] at hrv
          injection hrv with hrv
          subst hrv
          exact ⟨rfl, rfl, rfl, rfl, by simp [henc]⟩
      · intro hnone
        cases henc : encode_2bpp_image img (compute_palette_mapping palette) with
        | none => rfl
        | some data => rw [henc] at hnone; exact absurd hnone (by simp)
  · refine ⟨?_, fun h => absurd h h2, fun h => absurd h h4⟩
    intro n
    constructor
    · intro h
      rw [hconv] at h
      simp only [Except.error.injEq, PngToWasm4SrcError.InvalidPaletteSize.injEq] at h
      exact ⟨h, by omega, by omega⟩
    · rintro ⟨hlen, hn2, hn4⟩
      rw [hconv, hlen]

/-- C4 witness: a 3-colour palette yields `InvalidPaletteSize 3`, and a
2-colour palette takes the 1bpp branch on a concrete image. -/
theorem c4_witness :
    convert_png_to_rust_variables "n" [1, 2, 3] ⟨1, 1, fun _ _ => 1⟩ =
      .error (.InvalidPaletteSize 3) ∧
    (∃ o, convert_png_to_rust_variables "n" [10, 20] ⟨1, 1, fun _ _ => 10⟩ = .ok o ∧
      (∀ rv, o = some rv → rv.flags = Flags.OneBitPerPixel ∧
        rv.width = (⟨1, 1, fun _ _ => 10⟩ : Image).width ∧
        rv.height = (⟨1, 1, fun _ _ => 10⟩ : Image).height ∧ rv.name = "n" ∧
        encode_1bpp_image ⟨1, 1, fun _ _ => 10⟩ (compute_palette_mapping [10, 20]) =
          some rv.data) ∧
      (o = none → encode_1bpp_image ⟨1, 1, fun _ _ => 10⟩
        (compute_palette_mapping [10, 20]) = none)) :=
  ⟨((c4_invalid_palette_size "n" [1, 2, 3] ⟨1, 1, fun _ _ => 1⟩).1 3).mpr
      ⟨rfl, by decide, by decide⟩,
    (c4_invalid_palette_size "n" [10, 20] ⟨1, 1, fun _ _ => 10⟩).2.1 rfl⟩

/-! ### Character-level lemmas for the name sanitizer -/

theorem char_isLower_iff (c : Char) : c.isLower = true ↔ 97 ≤ c.toNat ∧ c.toNat ≤ 122 := by
  simp only [Char.isLower, Bool.and_eq_true, decide_eq_true_eq, ge_iff_le]
  rw [UInt32.le_def, UInt32.le_def, BitVec.le_def, BitVec.le_def]
  exact Iff.rfl

theorem char_toNat_ofNat_valid {n : Nat} (h : n < 55296) : (Char.ofNat n).toNat = n := by
  have hvalid : n.isValidChar := Or.inl h
  rw [Char.ofNat, dif_pos hvalid]
  rfl

theorem toUpper_not_lower (d : Char) : (Char.toUpper d).isLower = false := by
  rw [Char.toUpper]
  split <;> rename_i h
  · have hval : (Char.ofNat (d.toNat - 32)).toNat = d.toNat - 32 :=
      char_toNat_ofNat_valid (by omega)
    rw [← Bool.not_eq_true]
    intro hcon
    have hc := (char_isLower_iff _).mp hcon
    omega
  · rw [← Bool.not_eq_true]
    intro hcon
    have hc := (char_isLower_iff _).mp hcon
    omega

theorem bool_or_elim {a b : Bool} (h : (a || b) = true) : a = true ∨ b = true := by
  simpa using h

theorem dropWhile_head_not (p : Char → Bool) :
    ∀ (l : List Char) (c : Char), (l.dropWhile p).head? = some c → p c = false
  | [], c => by simp [List.dropWhile]
  | x :: xs, c => by
    rw [List.dropWhile_cons]
    cases hpx : p x with
    | true =>
      rw [if_pos rfl]
      exact dropWhile_head_not p xs c
    | false =>
      rw [if_neg (by simp)]
      intro h
      rw [List.head?_cons] at h
      injection h with h
      rw [← h]
      exact hpx

/-- C9: the sanitizer uppercases (ASCII), replaces hyphens with underscores,
drops leading characters that are not ASCII letters or underscore, and removes
every remaining character that is not ASCII alphanumeric or underscore,
possibly yielding an empty string without error.  The four documented examples
hold; additionally every output character is an ASCII uppercase letter, digit
or underscore, and the first output character (when present) is never a
digit. -/
theorem c9_sanitize_spec :
    sanitize_variable_name "some_variable" = "SOME_VARIABLE" ∧
    sanitize_variable_name "123some_variable" = "SOME_VARIABLE" ∧
    sanitize_variable_name "some variable" = "SOMEVARIABLE" ∧
    sanitize_variable_name "__some_variable" = "__SOME_VARIABLE" ∧
    sanitize_variable_name "123" = "" ∧
    (∀ s : String, ∀ c ∈ (sanitize_variable_name s).data,
      (c.isUpper || c.isDigit || c == '_') = true) ∧
    (∀ (s : String) (c : Char), (sanitize_variable_name s).data.head? = some c →
      (c.isAlpha || c == '_') = true) := by
  refine ⟨by decide, by decide, by decide, by decide, by decide, ?_, ?_⟩
  · intro s c hc
    have hdata : ∀ l : List Char, (String.mk l).data = l := fun _ => rfl
    rw [sanitize_variable_name, hdata] at hc
    have h1 := List.mem_filter.mp hc
    have h2 : c ∈ ((s.data.map Char.toUpper).map fun d => if d = '-' then '_' else d) :=
      List.Sublist.mem h1.1 (List.dropWhile_sublist _)
    obtain ⟨e, he, hce⟩ := List.mem_map.mp h2
    by_cases hehy : e = '-'
    · rw [if_pos hehy] at hce
      rw [← hce]
      simp
    · rw [if_neg hehy] at hce
      obtain ⟨d, _, hde⟩ := List.mem_map.mp he
      have hlow : c.isLower = false := by
        rw [← hce, ← hde]
        exact toUpper_not_lower d
      rcases bool_or_elim h1.2 with halnum | hund
      · simp only [Char.isAlphanum, Char.isAlpha, Bool.or_eq_true] at halnum
        rcases halnum with (hup | hlo) | hdig
        · simp [hup]
        · rw [hlo] at hlow
          exact absurd hlow (by simp)
        · simp [hdig]
      · simp [hund]
  · intro s c hhead
    have hdata : ∀ l : List Char, (String.mk l).data = l := fun _ => rfl
    rw [sanitize_variable_name, hdata] at hhead
    cases hL : ((s.data.map Char.toUpper).map fun d => if d = '-' then '_' else d).dropWhile
        (fun d => !(d.isAlpha || d == '_')) with
    | nil =>
      rw [hL] at hhead
      exact absurd hhead (by simp)
    | cons h0 t =>
      have hh0 : (fun d => !(d.isAlpha || d == '_')) h0 = false := by
        apply dropWhile_head_not _ _ h0
        rw [hL]
        rfl
      have hh0b : (!(h0.isAlpha || h0 == '_')) = false := hh0
      have hh0' : (h0.isAlpha || h0 == '_') = true := by
        cases hX : (h0.isAlpha || h0 == '_') with
        | false => rw [hX] at hh0b; exact absurd hh0b (by simp)
        | true => rfl
      have hkeep : (h0.isAlphanum || h0 == '_') = true := by
        rcases bool_or_elim hh0' with ha | hu
        · simp [Char.isAlphanum, ha]
        · simp [hu]
      rw [hL, List.filter_cons, if_pos hkeep, List.head?_cons] at hhead
      injection hhead with hhead
      rw [← hhead]
      exact hh0'

/-- C9 witness: the output-character facts applied to a concrete input. -/
theorem c9_witness :
    ('S'.isUpper || 'S'.isDigit || 'S' == '_') = true ∧
    ('S'.isAlpha || 'S' == '_') = true :=
  ⟨c9_sanitize_spec.2.2.2.2.2.1 "some_variable" 'S' (by decide),
    c9_sanitize_spec.2.2.2.2.2.2 "some_variable" 'S' (by decide)⟩

/-! ### Parse lemmas -/

theorem mem_insertSortedBy_sub (c : α → α → Ordering) (x z : α) :
    ∀ l : List α, z ∈ insertSortedBy c x l → z = x ∨ z ∈ l
  | [] => by simp [insertSortedBy]
  | y :: ys => by
    rw [insertSortedBy]
    cases h : c x y with
    | lt => simp [List.mem_cons]
    | eq => exact fun hz => Or.inr hz
    | gt =>
      intro hz
      rcases List.mem_cons.mp hz with hz | hz
      · exact Or.inr (List.mem_cons.mpr (Or.inl hz))
      · rcases mem_insertSortedBy_sub c x z ys hz with hz | hz
        · exact Or.inl hz
        · exact Or.inr (List.mem_cons.mpr (Or.inr hz))

theorem mem_btreeInsertAll_sub (c : α → α → Ordering) (z : α) :
    ∀ (l acc : List α), z ∈ btreeInsertAll c acc l → z ∈ acc ∨ z ∈ l
  | [], acc => by simp [btreeInsertAll]
  | x :: xs, acc => by
    rw [btreeInsertAll_cons]
    intro hz
    rcases mem_btreeInsertAll_sub c z xs _ hz with hz | hz
    · rcases mem_insertSortedBy_sub c x z acc hz with hz | hz
      · exact Or.inr (List.mem_cons.mpr (Or.inl hz))
      · exact Or.inl hz
    · exact Or.inr (List.mem_cons.mpr (Or.inr hz))

theorem mem_btreeOfList_sub (c : α → α → Ordering) (z : α) (l : List α)
    (h : z ∈ btreeOfList c l) : z ∈ l := by
  rcases mem_btreeInsertAll_sub c z l [] h with h | h
  · exact absurd h (List.not_mem_nil z)
  · exact h

theorem convertPath_ok_some (fs : String → Except PngToWasm4SrcError (List Nat × Image))
    (path : String) (rv : RustVariables)
    (h : convertPathToVariables fs path = .ok (some rv)) :
    fileStem path = some rv.name := by
  rw [convertPathToVariables] at h
  cases hstem : fileStem path with
  | none =>
    simp only [hstem] at h
    exact absurd h (by simp)
  | some stem =>
    simp only [hstem] at h
    cases hfs : fs path with
    | error e =>
      simp only [hfs] at h
      exact absurd h (by simp)
    | ok pi =>
      simp only [hfs] at h
      have hname : rv.name = stem := by
        rcases convert_cases stem pi.1 pi.2 with ⟨_, hc⟩ | ⟨_, hc⟩ | ⟨_, _, hc⟩
        · rw [hc] at h
          cases henc : encode_1bpp_image pi.2 (compute_palette_mapping pi.1) with
          | none => rw [henc] at h; exact absurd h (by simp)
          | some data =>
            rw [henc] at h
            simp only [Option.map_some'] at h
            injection h with h
            injection h with h
            rw [← h]
        · rw [hc] at h
          cases henc : encode_2bpp_image pi.2 (compute_palette_mapping pi.1) with
          | none => rw [henc] at h; exact absurd h (by simp)
          | some data =>
            rw [henc] at h
            simp only [Option.map_some'] at h
            injection h with h
            injection h with h
            rw [← h]
        · rw [hc] at h
          exact absurd h (by simp)
      rw [hname]

theorem collectVariables_ok_some (fs : String → Except PngToWasm4SrcError (List Nat × Image)) :
    ∀ (paths : List String) (rvs : List RustVariables),
      collectVariables fs paths = .ok (some rvs) →
      rvs.length = paths.length ∧
      ∀ rv ∈ rvs, ∃ p ∈ paths, convertPathToVariables fs p = .ok (some rv)
  | [], rvs, h => by
    rw [collectVariables] at h
    injection h with h
    injection h with h
    rw [← h]
    exact ⟨rfl, by simp⟩
  | path :: rest, rvs, h => by
    rw [collectVariables] at h
    cases hc : convertPathToVariables fs path with
    | error e =>
      simp only [hc] at h
      exact absurd h (by simp)
    | ok o =>
      cases o with
      | none =>
        simp only [hc] at h
        exact absurd h (by simp)
      | some rv =>
        simp only [hc] at h
        cases hrest : collectVariables fs rest with
        | error e =>
          simp only [hrest] at h
          exact absurd h (by simp)
        | ok o2 =>
          cases o2 with
          | none =>
            simp only [hrest] at h
            exact absurd h (by simp)
          | some rvs2 =>
            simp only [hrest] at h
            injection h with h
            injection h with h
            obtain ⟨hlen, hmem⟩ := collectVariables_ok_some fs rest rvs2 hrest
            rw [← h]
            refine ⟨by simp [hlen], ?_⟩
            intro rv' hrv'
            rcases List.mem_cons.mp hrv' with heq | hmem'
            · subst heq
              exact ⟨path, List.mem_cons_self _ _, hc⟩
            · obtain ⟨p, hp, hcp⟩ := hmem rv' hmem'
              exact ⟨p, List.mem_cons_of_mem _ hp, hcp⟩

theorem parseList_ok_some (fs : String → Except PngToWasm4SrcError (List Nat × Image)) :
    ∀ (subs : List Module) (pms : List ParsedModule),
      Module.parseList fs subs = .ok (some pms) →
      pms.length = subs.length ∧
      ∀ pm ∈ pms, ∃ m ∈ subs, Module.parse fs m = .ok (some pm)
  | [], pms, h => by
    rw [Module.parseList] at h
    injection h with h
    injection h with h
    rw [← h]
    exact ⟨rfl, by simp⟩
  | m :: rest, pms, h => by
    rw [Module.parseList] at h
    cases hc : Module.parse fs m with
    | error e =>
      simp only [hc] at h
      exact absurd h (by simp)
    | ok o =>
      cases o with
      | none =>
        simp only [hc] at h
        exact absurd h (by simp)
      | some pm =>
        simp only [hc] at h
        cases hrest : Module.parseList fs rest with
        | error e =>
          simp only [hrest] at h
          exact absurd h (by simp)
        | ok o2 =>
          cases o2 with
          | none =>
            simp only [hrest] at h
            exact absurd h (by simp)
          | some pms2 =>
            simp only [hrest] at h
            injection h with h
            injection h with h
            obtain ⟨hlen, hmem⟩ := parseList_ok_some fs rest pms2 hrest
            rw [← h]
            refine ⟨by simp [hlen], ?_⟩
            intro pm' hpm'
            rcases List.mem_cons.mp hpm' with heq | hmem'
            · subst heq
              exact ⟨m, List.mem_cons_self _ _, hc⟩
            · obtain ⟨m', hm', hcp⟩ := hmem pm' hmem'
              exact ⟨m', List.mem_cons_of_mem _ hm', hcp⟩

/-! ### Claim about parsing -/

/-- C7 counterexample: `Module::parse` collects the converted records into a
`BTreeSet`, so two sprite paths whose files convert to the same record (same
file stem `x`, same image content) collapse into a single record: the parsed
module has 1 variable for 2 sprite paths, refuting "one Sprite Record per
sprite path, with the same counts at every level". -/
theorem c7_counterexample :
    (Module.parse (fun _ => .ok ([10, 20], ⟨1, 1, fun _ _ => 10⟩))
        (Module.mk "m" ["a/x.png", "b/x.png"] [])).map
      (fun o => o.map fun pm => pm.vars.length) = .ok (some 1) ∧
    (Module.mk "m" ["a/x.png", "b/x.png"] []).sprite_paths.length = 2 :=
  ⟨rfl, rfl⟩

/-- C7 (amended): a successful parse produces a module with the same name,
with AT MOST one record per sprite path and at most one parsed submodule per
source submodule (the `BTreeSet` collapses duplicate conversion results, so
the counts can be smaller); every record's name is the file stem of one of the
sprite paths, and every parsed submodule is the parse of one of the source
submodules, recursively. -/
theorem c7_parse_amended :
    ∀ (fs : String → Except PngToWasm4SrcError (List Nat × Image)) (m : Module)
      (pm : ParsedModule),
      Module.parse fs m = .ok (some pm) →
      pm.name = m.name ∧
      pm.vars.length ≤ m.sprite_paths.length ∧
      pm.submodules.length ≤ m.submodules.length ∧
      (∀ rv ∈ pm.vars, ∃ p ∈ m.sprite_paths, fileStem p = some rv.name) ∧
      (∀ pm' ∈ pm.submodules, ∃ m' ∈ m.submodules, Module.parse fs m' = .ok (some pm')) := by
  intro fs m pm h
  cases m with
  | mk name paths subs =>
    rw [Module.parse] at h
    cases hcv : collectVariables fs paths with
    | error e =>
      simp only [hcv] at h
      exact absurd h (by simp)
    | ok o =>
      cases o with
      | none =>
        simp only [hcv] at h
        exact absurd h (by simp)
      | some rvs =>
        simp only [hcv] at h
        cases hpl : Module.parseList fs subs with
        | error e =>
          simp only [hpl] at h
          exact absurd h (by simp)
        | ok o2 =>
          cases o2 with
          | none =>
            simp only [hpl] at h
            exact absurd h (by simp)
          | some pms =>
            simp only [hpl] at h
            injection h with h
            injection h with h
            obtain ⟨hcl, hcm⟩ := collectVariables_ok_some fs paths rvs hcv
            obtain ⟨hpll, hplm⟩ := parseList_ok_some fs subs pms hpl
            rw [← h]
            refine ⟨rfl, ?_, ?_, ?_, ?_⟩
            · rw [ParsedModule.vars, Module.sprite_paths, ← hcl]
              exact length_btreeOfList _ rvs
            · rw [ParsedModule.submodules, Module.submodules, ← hpll]
              exact length_btreeOfList _ pms
            · intro rv hrv
              rw [ParsedModule.vars] at hrv
              obtain ⟨p, hp, hcp⟩ := hcm rv (mem_btreeOfList_sub _ _ _ hrv)
              exact ⟨p, hp, convertPath_ok_some fs p rv hcp⟩
            · intro pm' hpm'
              rw [ParsedModule.submodules] at hpm'
              exact hplm pm' (mem_btreeOfList_sub _ _ _ hpm')

/-- C7 witness: the amended claim applied to a concrete one-sprite module and
a concrete file oracle. -/
theorem c7_witness :
    (ParsedModule.mk "m" [RustVariables.mk "x" 1 1 Flags.OneBitPerPixel [0]] []).name =
        (Module.mk "m" ["a/x.png"] []).name ∧
    (ParsedModule.mk "m" [RustVariables.mk "x" 1 1 Flags.OneBitPerPixel [0]] []).vars.length ≤
        (Module.mk "m" ["a/x.png"] []).sprite_paths.length ∧
    (ParsedModule.mk "m" [RustVariables.mk "x" 1 1 Flags.OneBitPerPixel [0]] []).submodules.length ≤
        (Module.mk "m" ["a/x.png"] []).submodules.length ∧
    (∀ rv ∈ (ParsedModule.mk "m" [RustVariables.mk "x" 1 1 Flags.OneBitPerPixel [0]] []).vars,
      ∃ p ∈ (Module.mk "m" ["a/x.png"] []).sprite_paths, fileStem p = some rv.name) ∧
    (∀ pm' ∈ (ParsedModule.mk "m" [RustVariables.mk "x" 1 1 Flags.OneBitPerPixel [0]] []).submodules,
      ∃ m' ∈ (Module.mk "m" ["a/x.png"] []).submodules,
        Module.parse (fun _ => .ok ([10, 20], ⟨1, 1, fun _ _ => 10⟩)) m' = .ok (some pm')) :=
  c7_parse_amended (fun _ => .ok ([10, 20], ⟨1, 1, fun _ _ => 10⟩))
    (Module.mk "m" ["a/x.png"] [])
    (ParsedModule.mk "m" [RustVariables.mk "x" 1 1 Flags.OneBitPerPixel [0]] []) rfl

end Png2Wasm4Src
